import Mathlib

/-!
Verification of the smarthomeconnect core against its specification.

Times, durations and numeric log values are modelled as rationals (`ℚ`):
`datetime.datetime` values become seconds since the epoch, `datetime.timedelta`
values become seconds.  Fallible Python code is modelled with `Except String`.
Each definition is a direct translation of the Python function it is named
after; line numbers refer to the repository sources.
-/

/-- Decidable equality for `Except`, used to evaluate the models on concrete
inputs. -/
instance {ε α : Type} [DecidableEq ε] [DecidableEq α] : DecidableEq (Except ε α) :=
  fun x y =>
    match x, y with
    | .ok a, .ok b =>
      if h : a = b then isTrue (by rw [h]) else isFalse (fun hc => h (by cases hc; rfl))
    | .error a, .error b =>
      if h : a = b then isTrue (by rw [h]) else isFalse (fun hc => h (by cases hc; rfl))
    | .ok _, .error _ => isFalse (fun hc => Except.noConfusion hc)
    | .error _, .ok _ => isFalse (fun hc => Except.noConfusion hc)

namespace Shc

/-! ## Timer scheduler (`shc/timer.py`) -/

namespace Timer

/-- Model of `AbstractTimer._random_time` (timer.py lines 70-81).
`random_range` is the `random` timedelta (in seconds), `drawn` is the value
produced by the random generator: `random.uniform(-1, 1)` for the `uniform`
random function, `random.gauss(0, 0.5)` for `gauss`.  Python checks
`if not random_range` first, which is true for `None` and for the zero
timedelta, and only afterwards dispatches on the function name. -/
def AbstractTimer._random_time (random_range : Option ℚ) (random_function : String)
    (drawn : ℚ) : Except String ℚ :=
  match random_range with
  | none => .ok 0
  | some r =>
    if r = 0 then .ok 0
    else if random_function = "uniform" then .ok (r * drawn)
    else if random_function = "gauss" then .ok (r * drawn)
    else .error "Unsupported random function"

/-- Parameters of an `Every` timer (timer.py lines 84-93). -/
structure Every where
  delta : ℚ
  align : Bool
  offset : ℚ
  random : Option ℚ
  random_function : String

/-- Model of `Every._next_execution` (timer.py lines 95-107).
`last_execution` is the timer state, `now` the current wall-clock time in
seconds since the epoch, `drawn` the random draw used by `_random_time`.
The aligned branch computes `(floor(now / delta) + 1) * delta`. -/
def Every._next_execution (e : Every) (last_execution : Option ℚ) (now : ℚ)
    (drawn : ℚ) : Except String ℚ :=
  match AbstractTimer._random_time e.random e.random_function drawn with
  | .error err => .error err
  | .ok jitter =>
    .ok ((if e.align then
            ((⌊now / e.delta⌋ : ℤ) + 1) * e.delta
          else
            match last_execution with
            | none => now
            | some l => l + e.delta)
         + e.offset + jitter)

end Timer

/-! ## Interface supervisor (`shc/interfaces/_helper.py`) -/

namespace Helper

/-- Configuration of a `SupervisedClientInterface` (lines 12-17 of
`_helper.py`).  `failsafe_start` stores the value computed by `__init__`:
`failsafe_start and auto_reconnect`. -/
structure SupervisedClientInterface where
  auto_reconnect : Bool
  failsafe_start : Bool
  backoff_base : ℚ
  backoff_exponent : ℚ

/-- The constructor `SupervisedClientInterface.__init__` with the default
backoff parameters `backoff_base = 1`, `backoff_exponent = 1.25`
(lines 12-17): `failsafe_start` is only effective together with
`auto_reconnect`. -/
def SupervisedClientInterface.init (auto_reconnect failsafe_start : Bool) :
    SupervisedClientInterface :=
  ⟨auto_reconnect, failsafe_start && auto_reconnect, 1, 5 / 4⟩

/-- Result of a run of the `_supervise` loop (lines 96-198). -/
structure SuperviseResult where
  /-- Outcome of `await self._started` in `start()`: `some true` if the future
  got a result (start() returns normally), `some false` if it got an exception
  (start() raises), `none` if it was never resolved. -/
  startedOk : Option Bool
  /-- Number of `_connect` attempts performed. -/
  attempts : ℕ
  /-- Backoff waits (in seconds) slept before each reconnect attempt. -/
  waits : List ℚ
  /-- Whether `interface_failure` was scheduled (line 179). -/
  interfaceFailure : Bool
deriving DecidableEq, Repr

/-- One pass of the `while True` loop of `_supervise` (lines 99-197), driven by
the outcome of each cycle: `true` means `_connect`, the `_running` event and
`_subscribe` all succeeded (the supervisor then blocks in `await run_task`,
line 147, which ends the modelled run), `false` means the cycle raised an
exception.  `startedDone` tracks `self._started.done()`.  After a failure the
code first resolves the startup future (lines 156-165: fail-safe interfaces
report success, others re-raise and return), then handles the
no-auto-reconnect shutdown (lines 174-180), then sleeps `sleep` seconds and
multiplies it by the backoff exponent (lines 188-196). -/
def superviseGo (auto_reconnect failsafe_start : Bool) (exponent : ℚ) :
    ℚ → Bool → List Bool → SuperviseResult
  | _sleep, startedDone, [] =>
    ⟨if startedDone then some true else none, 0, [], false⟩
  | _sleep, _startedDone, true :: _rest =>
    ⟨some true, 1, [], false⟩
  | sleep, startedDone, false :: rest =>
    if !startedDone && !failsafe_start then
      ⟨some false, 1, [], false⟩
    else if !auto_reconnect then
      ⟨if startedDone || failsafe_start then some true else none, 1, [], true⟩
    else
      let r := superviseGo auto_reconnect failsafe_start exponent
                 (sleep * exponent) (startedDone || failsafe_start) rest
      ⟨r.startedOk, r.attempts + 1, sleep :: r.waits, r.interfaceFailure⟩

/-- `_supervise` started by `start()` (line 30): the backoff interval starts at
`backoff_base` (line 97) and the startup future is initially unresolved. -/
def SupervisedClientInterface._supervise (itf : SupervisedClientInterface)
    (startedDone : Bool) (outcomes : List Bool) : SuperviseResult :=
  superviseGo itf.auto_reconnect itf.failsafe_start itf.backoff_exponent
    itf.backoff_base startedDone outcomes

end Helper

/-! ## Web API object (`shc/web/__init__.py`) -/

namespace Web

/-- A Python value, as far as needed to model the comparison
`etag_match != id(self.future)` in `http_get` (line 672): in Python an `==`
comparison between a `str` and an `int` is always `False`. -/
inductive PyVal
  | pyStr (s : String)
  | pyInt (n : ℤ)
deriving DecidableEq, Repr

/-- Python equality: values of different types compare unequal. -/
def pyEq : PyVal → PyVal → Bool
  | .pyStr a, .pyStr b => a == b
  | .pyInt a, .pyInt b => a == b
  | _, _ => false

/-- Result tuple of `WebApiObject.http_get`: `(changed, value, etag)`. -/
structure HttpGetResult (V : Type) where
  changed : Bool
  value : Option V
  etag : String
deriving DecidableEq, Repr

/-- Model of `WebApiObject.http_get` (web/__init__.py lines 638-680).
`futureId` is `id(self.future)` for the current next-value future,
`providerValue` the value `_from_provider()` returns, `publishedValue` is
`some v` if a new value `v` is published before the timeout expires (resolving
the future) and `none` if the timeout expires first, and `newFutureId` is the
id of the replacement future created on publish.  The three branches mirror
lines 668-680; note that line 672 compares the string `etag_match` against the
integer `id(self.future)`. -/
def WebApiObject.http_get {V : Type} (wait : Bool) (etag_match : Option String)
    (futureId : ℤ) (providerValue : V) (publishedValue : Option V)
    (newFutureId : ℤ) : HttpGetResult V :=
  -- If not waiting for next value and etag indicates unchanged value (line 668)
  if !wait && (etag_match == some (toString futureId)) then
    ⟨false, none, toString futureId⟩
  -- If not waiting for next value *or* etag indicates changed value (line 671);
  -- the second disjunct compares a str with an int and is therefore true
  -- whenever etag_match is not None
  else if !wait || (etag_match.isSome &&
                    !(pyEq (.pyStr (etag_match.getD "")) (.pyInt futureId))) then
    ⟨true, some providerValue, toString futureId⟩
  -- If waiting for next value: await future using timeout (lines 676-680)
  else
    match publishedValue with
    | some v => ⟨true, some v, toString newFutureId⟩
    | none => ⟨false, none, toString futureId⟩

end Web

/-! ## MySQL persistence (`shc/interfaces/mysql.py`) -/

namespace Mysql

/-- Semantics of the SQL produced by
`MySQLPersistenceVariable._get_retrieve_query` (mysql.py lines 138-152),
executed by `retrieve_log` (lines 113-132), over the rows of the `log` table
belonging to this variable, given as `(ts, value)` pairs ordered by `ts`
ascending.  With `include_previous` the query is the UNION of the latest row
with `ts < start` (`ORDER BY ts DESC LIMIT 1`) and all rows with
`start <= ts < end` (`ORDER BY ts ASC`); the previous row is *always* part of
the union when one exists. -/
def retrieve_log {V : Type} (rows : List (ℚ × V)) (start_time end_time : ℚ)
    (include_previous : Bool) : List (ℚ × V) :=
  let in_range := rows.filter fun r => decide (start_time ≤ r.1) && decide (r.1 < end_time)
  if include_previous then
    ((rows.filter fun r => decide (r.1 < start_time)).getLast?.toList) ++ in_range
  else
    in_range

/-- The behaviour documented for `DataLogVariable.retrieve_log`
(log/generic.py lines 45-55): the last entry before `start` shall be included
*only* if there is no entry exactly at `start_time`.  Stated from the
documentation for comparison with the implemented query. -/
def retrieve_log_documented {V : Type} (rows : List (ℚ × V)) (start_time end_time : ℚ)
    (include_previous : Bool) : List (ℚ × V) :=
  let in_range := rows.filter fun r => decide (start_time ≤ r.1) && decide (r.1 < end_time)
  if include_previous && !(rows.any fun r => decide (r.1 = start_time)) then
    ((rows.filter fun r => decide (r.1 < start_time)).getLast?.toList) ++ in_range
  else
    in_range

end Mysql

end Shc

/-! ## Theorems -/

/-- **C9.** `Every._next_execution` returns: when `align` is true, the next
multiple of `delta` (counted from the epoch) strictly after the current time,
plus `offset`, plus the jitter produced by `_random_time` from `random` and
`random_function`; when `align` is false, `last_execution + delta` (or the
current time for the first firing), plus `offset` and jitter. -/
theorem Shc.Timer.next_execution_spec (e : Every) (last_execution : Option ℚ)
    (now drawn jitter res : ℚ) (hδ : 0 < e.delta)
    (hjit : AbstractTimer._random_time e.random e.random_function drawn = .ok jitter)
    (hres : Every._next_execution e last_execution now drawn = .ok res) :
    (e.align = true →
      ∃ k : ℤ, res = k * e.delta + e.offset + jitter ∧
        now < k * e.delta ∧
        ∀ k' : ℤ, now < k' * e.delta → k * e.delta ≤ k' * e.delta) ∧
    (e.align = false → last_execution = none → res = now + e.offset + jitter) ∧
    (e.align = false → ∀ l, last_execution = some l →
      res = l + e.delta + e.offset + jitter) ∧
    (∀ r, e.random = some r → r ≠ 0 →
      (e.random_function = "uniform" ∨ e.random_function = "gauss") →
      jitter = r * drawn) := by
  unfold Every._next_execution at hres
  rw [hjit] at hres
  simp only [Except.ok.injEq] at hres
  refine ⟨?_, ?_, ?_, ?_⟩
  · intro halign
    refine ⟨⌊now / e.delta⌋ + 1, ?_, ?_, ?_⟩
    · rw [← hres, halign]; simp
    · have h1 : now / e.delta < (⌊now / e.delta⌋ : ℚ) + 1 := Int.lt_floor_add_one _
      have h2 : now < ((⌊now / e.delta⌋ : ℚ) + 1) * e.delta := by
        calc now = now / e.delta * e.delta := by field_simp
        _ < ((⌊now / e.delta⌋ : ℚ) + 1) * e.delta := by
            exact mul_lt_mul_of_pos_right h1 hδ
      simpa using h2
    · intro k' hk'
      have h3 : now / e.delta < (k' : ℚ) := by
        rw [div_lt_iff₀ hδ]; exact hk'
      have h4 : ⌊now / e.delta⌋ < k' := Int.floor_lt.mpr h3
      have h5 : (⌊now / e.delta⌋ + 1 : ℤ) ≤ k' := h4
      have h6 : ((⌊now / e.delta⌋ + 1 : ℤ) : ℚ) ≤ (k' : ℚ) := by exact_mod_cast h5
      have := mul_le_mul_of_nonneg_right h6 (le_of_lt hδ)
      simpa using this
  · intro halign hlast
    rw [← hres, halign, hlast]
    simp
  · intro halign l hlast
    rw [← hres, halign, hlast]
    simp
  · intro r hr hr0 hfn
    unfold AbstractTimer._random_time at hjit
    rw [hr] at hjit
    simp only [hr0, if_false] at hjit
    rcases hfn with hfn | hfn <;> rw [hfn] at hjit <;> simp_all

/-- Witness for C9: an aligned timer with `delta = 60 s`, `offset = 5 s`,
`random = 2 s`, uniform draw `1/2` at `now = 130 s` past the epoch. -/
theorem Shc.Timer.next_execution_spec_witness :
    ∃ k : ℤ, (186 : ℚ) = k * 60 + 5 + 1 ∧ (130 : ℚ) < k * 60 ∧
      ∀ k' : ℤ, (130 : ℚ) < k' * 60 → (k : ℚ) * 60 ≤ k' * 60 := by
  have h := Shc.Timer.next_execution_spec
    ⟨60, true, 5, some 2, "uniform"⟩ none 130 (1/2) 1 186
    (by norm_num) (by norm_num [Shc.Timer.AbstractTimer._random_time])
    (by norm_num [Shc.Timer.Every._next_execution,
                  Shc.Timer.AbstractTimer._random_time])
  exact h.1 rfl

/-- Helper: once the startup future is resolved (`startedDone = true`), no later
cycle of `_supervise` can change the outcome of `start()`. -/
theorem Shc.Helper.superviseGo_startedDone (ar fs : Bool) (exponent : ℚ) :
    ∀ (outcomes : List Bool) (sleep : ℚ),
      (superviseGo ar fs exponent sleep true outcomes).startedOk = some true := by
  intro outcomes
  induction outcomes with
  | nil => intro sleep; rfl
  | cons o rest ih =>
    intro sleep
    cases o with
    | true => rfl
    | false =>
      simp only [superviseGo, Bool.not_true, Bool.false_and, Bool.false_eq_true,
        if_false, Bool.true_or]
      cases ar with
      | false => simp
      | true => simpa using ih (sleep * exponent)

/-- **C7 (amended).** The backoff progression of `_supervise` (lines 96-198):
provided the interface either runs in effective fail-safe mode or has already
completed startup (otherwise the very first failure resolves the startup
future with the exception and the supervisor returns, lines 156-165), `k`
consecutive cycle failures followed by a success produce exactly `k + 1`
connect attempts with intermediate waits `backoff_base * backoff_exponent^i`
for `i = 0, …, k-1`: the first wait is `backoff_base` and each further
consecutive failure multiplies the wait by `backoff_exponent`. -/
theorem Shc.Helper.backoff_progression (base exponent : ℚ) (fs sd : Bool) (k : ℕ)
    (hctx : (fs || sd) = true) :
    SupervisedClientInterface._supervise ⟨true, fs, base, exponent⟩ sd
      (List.replicate k false ++ [true]) =
      ⟨some true, k + 1, (List.range k).map (fun i => base * exponent ^ i), false⟩ := by
  show superviseGo true fs exponent base sd (List.replicate k false ++ [true]) = _
  induction k generalizing base sd with
  | zero => simp [superviseGo]
  | succ k ih =>
    have hstep : List.replicate (k + 1) false ++ [true] =
        false :: (List.replicate k false ++ [true]) := by
      simp [List.replicate_succ]
    rw [hstep]
    have hsd' : (fs || (sd || fs)) = true := by
      cases fs <;> cases sd <;> simp_all
    have hrec := ih (base * exponent) (sd || fs) hsd'
    have hguard : (!sd && !fs) = false := by
      cases fs <;> cases sd <;> simp_all
    simp only [superviseGo, hguard, Bool.false_eq_true, if_false, Bool.not_true]
    rw [hrec]
    have hw : base :: (List.range k).map (fun i => base * exponent * exponent ^ i) =
        (List.range (k + 1)).map (fun i => base * exponent ^ i) := by
      rw [List.range_succ_eq_map, List.map_cons, List.map_map]
      congr 1
      · rw [pow_zero, mul_one]
      · refine List.map_congr_left ?_
        intro i _
        simp only [Function.comp_apply, pow_succ]
        ring
    rw [hw]

/-- Witness for C7: with the default backoff parameters and fail-safe start,
two rejected connects followed by a success give three attempts with waits
`1` and `1 * 1.25 = 5/4` seconds. -/
theorem Shc.Helper.backoff_progression_witness :
    Shc.Helper.SupervisedClientInterface._supervise
      (Shc.Helper.SupervisedClientInterface.init true true) false
      [false, false, true] =
      ⟨some true, 3, [1, 5 / 4], false⟩ := by
  have h := Shc.Helper.backoff_progression 1 (5 / 4) true false 2 rfl
  have hi : Shc.Helper.SupervisedClientInterface.init true true =
      ⟨true, true, 1, 5 / 4⟩ := rfl
  rw [hi, show ([false, false, true] : List Bool) =
      List.replicate 2 false ++ [true] from rfl, h]
  norm_num [List.range_succ]

/-- **C7 counterexample.** With the default configuration
(`auto_reconnect = true`, `failsafe_start = false`) a connect rejection during
startup resolves the startup future with the exception and ends supervision
after a *single* connect attempt — not three attempts with backoff waits. -/
theorem Shc.Helper.default_startup_single_attempt :
    Shc.Helper.SupervisedClientInterface._supervise
      (Shc.Helper.SupervisedClientInterface.init true false) false
      [false, false, true] = ⟨some false, 1, [], false⟩ ∧
    (Shc.Helper.SupervisedClientInterface._supervise
      (Shc.Helper.SupervisedClientInterface.init true false) false
      [false, false, true]).attempts ≠ 3 := by
  constructor
  · rfl
  · decide

/-- **C8.** A failure during the initial startup of a
`SupervisedClientInterface` lets `start()` return successfully exactly when
both `failsafe_start` and `auto_reconnect` were passed to the constructor
(which stores `failsafe_start and auto_reconnect`, line 15); in every other
configuration the startup future receives the exception and `start()`
raises. -/
theorem Shc.Helper.failsafe_start_spec (a f : Bool) (rest : List Bool) :
    (SupervisedClientInterface._supervise (SupervisedClientInterface.init a f) false
      (false :: rest)).startedOk = if a && f then some true else some false := by
  unfold SupervisedClientInterface._supervise SupervisedClientInterface.init
  cases a with
  | false =>
    cases f <;> simp [superviseGo]
  | true =>
    cases f with
    | false => simp [superviseGo]
    | true =>
      simp only [Bool.and_true, Bool.and_self, if_true]
      simp only [superviseGo, Bool.not_false, Bool.and_true, Bool.not_true,
        Bool.and_false, Bool.false_eq_true, if_false, Bool.false_or, Bool.or_true]
      exact superviseGo_startedDone true true (5 / 4) rest (1 * (5 / 4))

/-- **C1 (code evaluation).** `http_get` with `wait=True` and an `If-None-Match`
value equal to the current future's etag returns *immediately* with
`changed=True` and the provider's current value, instead of awaiting the
future and returning `changed=False` after the timeout: line 672 compares the
string `etag_match` with the integer `id(self.future)`, which is always
unequal in Python. -/
theorem Shc.Web.http_get_matching_etag_does_not_wait :
    WebApiObject.http_get (V := String) true (some (toString (42 : ℤ))) 42
      "current" none 43 = ⟨true, some "current", "42"⟩ ∧
    WebApiObject.http_get (V := String) true (some (toString (42 : ℤ))) 42
      "current" none 43 ≠ ⟨false, none, "42"⟩ := by
  constructor
  · rfl
  · decide

/-- **C2 (code evaluation).** With rows at `ts = 5` and `ts = 10` and the query
range `[10, 20)`, the implemented retrieve query prepends the row at `ts = 5`
although an entry exists exactly at the range start, while the documented
behaviour (generic.py lines 45-55) would return only the in-range rows. -/
theorem Shc.Mysql.retrieve_log_prepends_despite_entry_at_start :
    retrieve_log [((5 : ℚ), (1 : ℤ)), (10, 2)] 10 20 true = [(5, 1), (10, 2)] ∧
    retrieve_log_documented [((5 : ℚ), (1 : ℤ)), (10, 2)] 10 20 true = [(10, 2)] ∧
    retrieve_log [((5 : ℚ), (1 : ℤ)), (10, 2)] 10 20 true ≠
      retrieve_log_documented [((5 : ℚ), (1 : ℤ)), (10, 2)] 10 20 true := by
  refine ⟨by decide, by decide, by decide⟩

namespace Shc.Log

/-! ## Data-log aggregation (`shc/log/generic.py`) -/

/-- The aggregation methods (generic.py lines 31-36).  The source spells the
last constructor `ON_TIME_RATIO`; it is written with a trailing underscore
here. -/
inductive AggregationMethod
  | AVERAGE
  | MINIMUM
  | MAXIMUM
  | ON_TIME
  | ON_TIME_RATIO_
deriving DecidableEq, Repr

/-- Ground value type of a log variable, as far as relevant for the
`issubclass(type, (int, float))` check in `aggregate` (generic.py
lines 294-296).  In Python, `bool` is a subclass of `int`, so boolean
variables pass the numeric check. -/
inductive LogValueType
  | tBool
  | tInt
  | tFloat
  | tStr
deriving DecidableEq, Repr

/-- `issubclass(type, (int, float))`. -/
def LogValueType.isNumeric : LogValueType → Bool
  | .tBool => true
  | .tInt => true
  | .tFloat => true
  | .tStr => false

/-- Interface of the `AbstractAggregator` classes (generic.py lines 387-413):
a state type `σ`, the `reset` state, the `aggregate` step (called `step` here
to avoid clashing with the top-level `aggregate` function) receiving the
state, interval start, interval end and the value in effect, and `get`, which
may raise (modelled with `Except`).  Log values are embedded in `ℚ`: numbers
are themselves, booleans are 0/1, so Python truthiness is `v ≠ 0`. -/
structure AggImpl (σ : Type) where
  reset : σ
  step : σ → ℚ → ℚ → ℚ → σ
  get : σ → Except String ℚ

/-- `AverageAggregator` (generic.py lines 416-435): state is
`(value_sum, time_sum)`; `get` divides, raising `ZeroDivisionError` when
`time_sum` is zero (never reached by `aggregate` on time-ordered input). -/
def AverageAggregator : AggImpl (ℚ × ℚ) where
  reset := (0, 0)
  step st s e v := (st.1 + v * (e - s), st.2 + (e - s))
  get st := if st.2 = 0 then .error "ZeroDivisionError" else .ok (st.1 / st.2)

/-- `MinAggregator` (generic.py lines 438-453): the state `none` models the
initial `float('inf')`, which `ℚ` cannot represent; `get` on that state
(never reached by `aggregate`, whose every `get` follows at least one
`aggregate` call) is modelled as an error standing for the infinite result. -/
def MinAggregator : AggImpl (Option ℚ) where
  reset := none
  step st _ _ v := some (match st with | none => v | some m => min m v)
  get st := match st with | none => .error "inf" | some m => .ok m

/-- `MaxAggregator` (generic.py lines 456-471), dually with `float('-inf')`. -/
def MaxAggregator : AggImpl (Option ℚ) where
  reset := none
  step st _ _ v := some (match st with | none => v | some m => max m v)
  get st := match st with | none => .error "-inf" | some m => .ok m

/-- `OnTimeAggregator` (generic.py lines 474-490): state is the accumulated
`timedelta` (in seconds) of truthy intervals; `get` returns its seconds. -/
def OnTimeAggregator : AggImpl ℚ where
  reset := 0
  step st s e v := if v ≠ 0 then st + (e - s) else st
  get st := .ok st

/-- `OnTimeRatioAggregator` (generic.py lines 493-513): state is
`(value, total_time)`; `get` divides the two timedeltas, raising
`ZeroDivisionError` when `total_time` is zero. -/
def OnTimeRatioAggregator : AggImpl (ℚ × ℚ) where
  reset := (0, 0)
  step st s e v := (if v ≠ 0 then st.1 + (e - s) else st.1, st.2 + (e - s))
  get st := if st.2 = 0 then .error "ZeroDivisionError" else .ok (st.1 / st.2)

/-- The `aggregation_timestamps` list built in `aggregate` (generic.py
lines 286-292): `start + i * interval` for
`i < ceil((end - start) / interval)`, with `end_time` appended when the last
timestamp is smaller than `end_time`.  (For a non-positive interval the
Python code raises; `aggregate` models those errors before using this
list.) -/
def aggregation_timestamps (start_time end_time interval : ℚ) : List ℚ :=
  let n := (⌈(end_time - start_time) / interval⌉).toNat
  let base := (List.range n).map (fun i : ℕ => start_time + (i : ℚ) * interval)
  match base.getLast? with
  | some t => if t < end_time then base ++ [end_time] else base
  | none => base

/-- The leading skip loop of `aggregate` (generic.py lines 319-323): starting
from the timestamp suffix `cur :: rest` (with `prev` the timestamp before
`cur`, if any), advance past all aggregation timestamps that are `≤` the
first entry's timestamp; `none` models the `return []` when the index runs
past the end of the list. -/
def skipLoop (first_ts : ℚ) : Option ℚ → ℚ → List ℚ → Option (Option ℚ × ℚ × List ℚ)
  | prev, cur, [] =>
    if first_ts ≥ cur then none else some (prev, cur, [])
  | prev, cur, cur' :: rest' =>
    if first_ts ≥ cur then skipLoop first_ts (some cur) cur' rest'
    else some (prev, cur, cur' :: rest')

/-- The trailing fill loop of `aggregate` (generic.py lines 374-381): emit one
entry per remaining aggregation interval, each aggregating only the
carried-forward `last_value` over the full interval.  `prev` is the interval
start `aggregation_timestamps[next_aggr_ts_index - 1]`, the list holds the
remaining timestamps from `next_aggr_ts_index` on. -/
def fillRemainingLoop {σ : Type} (impl : AggImpl σ) (last_value : ℚ) :
    ℚ → List ℚ → List (ℚ × ℚ) → Except String (List (ℚ × ℚ))
  | _prev, [], result => .ok result
  | prev, t :: rest, result =>
    match impl.get (impl.step impl.reset prev t last_value) with
    | .error e => .error e
    | .ok v => fillRemainingLoop impl last_value t rest (result ++ [(prev, v)])

/-- The inner while loop of `aggregate` for empty aggregation intervals
(generic.py lines 344-353).  `prev` is `aggregation_timestamps[next_idx - 1]`,
`cur` is `aggregation_timestamps[next_idx]`, `rest` the timestamps after
`cur`.  Returns `.inl result` for the early `return result` (index ran past
the end) and `.inr (prev, cur, rest, result)` when the loop condition fails
and the outer iteration continues. -/
def emptyIntervalsLoop {σ : Type} (impl : AggImpl σ) (ts last_value : ℚ) :
    ℚ → ℚ → List ℚ → List (ℚ × ℚ) →
    Except String ((List (ℚ × ℚ)) ⊕ (ℚ × ℚ × List ℚ × List (ℚ × ℚ)))
  | prev, cur, [], result =>
    if ts ≥ cur then
      match impl.get (impl.step impl.reset prev cur last_value) with
      | .error e => .error e
      | .ok v => .ok (.inl (result ++ [(prev, v)]))
    else .ok (.inr (prev, cur, [], result))
  | prev, cur, cur' :: rest', result =>
    if ts ≥ cur then
      match impl.get (impl.step impl.reset prev cur last_value) with
      | .error e => .error e
      | .ok v => emptyIntervalsLoop impl ts last_value cur cur' rest' (result ++ [(prev, v)])
    else .ok (.inr (prev, cur, cur' :: rest', result))

/-- The main loop of `aggregate` over the log entries (generic.py
lines 328-381), including the tail handling after the iterator is exhausted.
State: `data` is the remaining iterator, `prev` is
`aggregation_timestamps[next_aggr_ts_index - 1]` (`none` iff
`next_aggr_ts_index = 0`), `cur` is
`aggregation_timestamps[next_aggr_ts_index]`, `rest` the timestamps after
`cur`, `last_ts`/`last_value` the previous entry, `st` the aggregator state
and `result` the accumulated result list. -/
def mainLoop {σ : Type} (impl : AggImpl σ) :
    List (ℚ × ℚ) → Option ℚ → ℚ → List ℚ → ℚ → ℚ → σ → List (ℚ × ℚ) →
    Except String (List (ℚ × ℚ))
  | [], prev, cur, rest, last_ts, last_value, st, result =>
    -- iterator exhausted: lines 364-381
    match prev with
    | some p =>
      match impl.get (impl.step st last_ts cur last_value) with
      | .error e => .error e
      | .ok v => fillRemainingLoop impl last_value cur rest (result ++ [(p, v)])
    | none => fillRemainingLoop impl last_value cur rest result
  | (ts, value) :: dataRest, prev, cur, rest, last_ts, last_value, st, result =>
    if ts ≥ cur then
      -- finalize the current aggregation interval: lines 331-341
      match (match prev with
             | some p =>
               match impl.get (impl.step st last_ts cur last_value) with
               | .error e => .error e
               | .ok v => .ok (result ++ [(p, v)])
             | none => .ok result : Except String (List (ℚ × ℚ))) with
      | .error e => .error e
      | .ok result₁ =>
        match rest with
        | [] => .ok result₁   -- next_aggr_ts_index >= len: return result (line 341)
        | cur' :: rest' =>
          match emptyIntervalsLoop impl ts last_value cur cur' rest' result₁ with
          | .error e => .error e
          | .ok (.inl result₂) => .ok result₂
          | .ok (.inr (prev₂, cur₂, rest₂, result₂)) =>
            -- aggregator.reset() (line 354) and the accumulate step
            -- (lines 357-359, with next_aggr_ts_index ≥ 1 here)
            mainLoop impl dataRest (some prev₂) cur₂ rest₂ ts value
              (impl.step impl.reset (max last_ts prev₂) ts last_value) result₂
    else
      -- accumulate the weighted value: lines 357-359
      mainLoop impl dataRest prev cur rest ts value
        (match prev with
         | some p => impl.step st (max last_ts p) ts last_value
         | none => st) result

/-- Model of the `aggregate` function (generic.py lines 283-381).  Log entries
are `(timestamp, value)` pairs with values embedded in `ℚ` (booleans as 0/1).
Python errors — `ZeroDivisionError` for a zero interval (line 287),
`IndexError` for the `aggregation_timestamps[-1]` access on an empty list
(line 291), the `TypeError` of the numeric check (lines 294-296) and errors
raised by the aggregators — are modelled with `Except.error`.  The
`ValueError` branch for unsupported methods (lines 298-299) is unreachable,
the inductive type covers all five methods. -/
def aggregate (data : List (ℚ × ℚ)) (type : LogValueType) (start_time end_time : ℚ)
    (aggregation_method : AggregationMethod) (aggregation_interval : ℚ) :
    Except String (List (ℚ × ℚ)) :=
  if aggregation_interval = 0 then .error "ZeroDivisionError" else
  match aggregation_timestamps start_time end_time aggregation_interval with
  | [] => .error "IndexError"
  | at0 :: atRest =>
    if (aggregation_method = .MINIMUM ∨ aggregation_method = .MAXIMUM ∨
        aggregation_method = .AVERAGE) ∧ type.isNumeric = false then
      .error "TypeError"
    else
      match data with
      | [] => .ok []   -- StopIteration from next(iterator): return [] (line 317)
      | (first_ts, first_value) :: dataRest =>
        match skipLoop first_ts none at0 atRest with
        | none => .ok []
        | some (prev, cur, rest) =>
          match aggregation_method with
          | .AVERAGE =>
            mainLoop AverageAggregator dataRest prev cur rest first_ts first_value
              AverageAggregator.reset []
          | .MINIMUM =>
            mainLoop MinAggregator dataRest prev cur rest first_ts first_value
              MinAggregator.reset []
          | .MAXIMUM =>
            mainLoop MaxAggregator dataRest prev cur rest first_ts first_value
              MaxAggregator.reset []
          | .ON_TIME =>
            mainLoop OnTimeAggregator dataRest prev cur rest first_ts first_value
              OnTimeAggregator.reset []
          | .ON_TIME_RATIO_ =>
            mainLoop OnTimeRatioAggregator dataRest prev cur rest first_ts first_value
              OnTimeRatioAggregator.reset []

end Shc.Log

namespace Shc.Log

/-! ### Bucket structure of `aggregate` -/

/-- Number of aggregation intervals covering `[start_time, end_time)`:
`ceil((end_time - start_time) / aggregation_interval)`. -/
def numAggregationIntervals (start_time end_time interval : ℚ) : ℕ :=
  (⌈(end_time - start_time) / interval⌉).toNat

/-- End of bucket `i`: bucket `i` spans
`[start_time + i*interval, start_time + (i+1)*interval)`, with the last
partial bucket clipped to `end_time`. -/
def bucketEnd (start_time end_time interval : ℚ) (i : ℕ) : ℚ :=
  min (start_time + ((i : ℚ) + 1) * interval) end_time

/-- The number of leading buckets lying entirely before the first available
sample: those whose end is at most `first_ts`. -/
def leadingEmptyIntervals (start_time end_time interval first_ts : ℚ) : ℕ :=
  (List.range (numAggregationIntervals start_time end_time interval)).countP
    (fun i => decide (bucketEnd start_time end_time interval i ≤ first_ts))

theorem numAggregationIntervals_pos (s e Δ : ℚ) (hse : s < e) (hΔ : 0 < Δ) :
    1 ≤ numAggregationIntervals s e Δ := by
  have hx : 0 < (e - s) / Δ := div_pos (by linarith) hΔ
  have hceil : 0 < ⌈(e - s) / Δ⌉ := Int.ceil_pos.mpr hx
  unfold numAggregationIntervals
  omega

theorem cast_numAggregationIntervals (s e Δ : ℚ) (hse : s < e) (hΔ : 0 < Δ) :
    ((numAggregationIntervals s e Δ : ℕ) : ℚ) = (⌈(e - s) / Δ⌉ : ℚ) := by
  have hx : 0 < (e - s) / Δ := div_pos (by linarith) hΔ
  have hceil : 0 < ⌈(e - s) / Δ⌉ := Int.ceil_pos.mpr hx
  unfold numAggregationIntervals
  rw [show (((⌈(e - s) / Δ⌉).toNat : ℕ) : ℚ) = (((⌈(e - s) / Δ⌉).toNat : ℤ) : ℚ) by
    push_cast; ring]
  rw [Int.toNat_of_nonneg hceil.le]

/-- Every regular aggregation timestamp `start + i*interval` with
`i < numAggregationIntervals` lies strictly before `end_time`. -/
theorem timestamp_lt_end (s e Δ : ℚ) (hse : s < e) (hΔ : 0 < Δ) :
    ∀ i < numAggregationIntervals s e Δ, s + (i : ℚ) * Δ < e := by
  intro i hi
  have hn := cast_numAggregationIntervals s e Δ hse hΔ
  have hceil : (⌈(e - s) / Δ⌉ : ℚ) < (e - s) / Δ + 1 := Int.ceil_lt_add_one _
  have hi' : (i : ℚ) ≤ ((numAggregationIntervals s e Δ : ℕ) : ℚ) - 1 := by
    have : (i : ℚ) + 1 ≤ ((numAggregationIntervals s e Δ : ℕ) : ℚ) := by
      exact_mod_cast hi
    linarith
  have hlt : (i : ℚ) < (e - s) / Δ := by
    rw [hn] at hi'
    linarith
  have := (lt_div_iff₀ hΔ).mp hlt
  linarith

/-- The end of the last bucket is `end_time` itself. -/
theorem end_le_last_timestamp (s e Δ : ℚ) (hse : s < e) (hΔ : 0 < Δ) :
    e ≤ s + ((numAggregationIntervals s e Δ : ℕ) : ℚ) * Δ := by
  have hn := cast_numAggregationIntervals s e Δ hse hΔ
  have hle : (e - s) / Δ ≤ (⌈(e - s) / Δ⌉ : ℚ) := Int.le_ceil _
  have := (div_le_iff₀ hΔ).mp hle
  rw [← hn] at this
  linarith

/-- Closed form of the timestamp list built by `aggregate`: the regular
timestamps `start + i*interval` for `i < numAggregationIntervals`, followed by
`end_time`. -/
theorem aggregation_timestamps_eq (s e Δ : ℚ) (hse : s < e) (hΔ : 0 < Δ) :
    aggregation_timestamps s e Δ =
      ((List.range (numAggregationIntervals s e Δ)).map
        fun i : ℕ => s + (i : ℚ) * Δ) ++ [e] := by
  obtain ⟨m, hm⟩ : ∃ m, numAggregationIntervals s e Δ = m + 1 := by
    have := numAggregationIntervals_pos s e Δ hse hΔ
    exact ⟨numAggregationIntervals s e Δ - 1, by omega⟩
  have hmn : (⌈(e - s) / Δ⌉).toNat = m + 1 := hm
  have hlast : s + (m : ℚ) * Δ < e :=
    timestamp_lt_end s e Δ hse hΔ m (by omega)
  simp only [aggregation_timestamps, hmn]
  rw [List.range_succ, List.map_append, List.map_singleton,
    List.getLast?_concat]
  simp only [hlast, if_pos]
  rw [← List.map_singleton (fun i : ℕ => s + (i : ℚ) * Δ), ← List.map_append,
    ← List.range_succ]
  rw [show numAggregationIntervals s e Δ = m + 1 from hm]

/-- The aggregation timestamps are strictly increasing. -/
theorem aggregation_timestamps_sorted (s e Δ : ℚ) (hse : s < e) (hΔ : 0 < Δ) :
    (aggregation_timestamps s e Δ).Pairwise (· < ·) := by
  rw [aggregation_timestamps_eq s e Δ hse hΔ]
  rw [List.pairwise_append]
  refine ⟨?_, by simp, ?_⟩
  · rw [List.pairwise_map]
    refine (List.pairwise_lt_range _).imp ?_
    intro a b hab
    have h : (a : ℚ) < (b : ℚ) := by exact_mod_cast hab
    nlinarith
  · intro a ha b hb
    simp only [List.mem_singleton] at hb
    rw [hb]
    simp only [List.mem_map, List.mem_range] at ha
    obtain ⟨i, hi, rfl⟩ := ha
    exact timestamp_lt_end s e Δ hse hΔ i hi

/-- The tail of the timestamp list is exactly the list of bucket ends. -/
theorem aggregation_timestamps_tail_eq (s e Δ : ℚ) (hse : s < e) (hΔ : 0 < Δ) :
    (aggregation_timestamps s e Δ).tail =
      (List.range (numAggregationIntervals s e Δ)).map (bucketEnd s e Δ) := by
  obtain ⟨m, hm⟩ : ∃ m, numAggregationIntervals s e Δ = m + 1 := by
    have := numAggregationIntervals_pos s e Δ hse hΔ
    exact ⟨numAggregationIntervals s e Δ - 1, by omega⟩
  have h1 : (aggregation_timestamps s e Δ).tail =
      List.map ((fun i : ℕ => s + (i : ℚ) * Δ) ∘ Nat.succ) (List.range m) ++ [e] := by
    rw [aggregation_timestamps_eq s e Δ hse hΔ, hm, List.range_succ_eq_map,
      List.map_cons, List.cons_append, List.tail_cons, List.map_map]
  rw [h1, hm, List.range_succ, List.map_append, List.map_singleton]
  congr 1
  · refine List.map_congr_left ?_
    intro i hi
    simp only [List.mem_range] at hi
    unfold bucketEnd
    have hlt : s + ((i : ℚ) + 1) * Δ < e := by
      have h := timestamp_lt_end s e Δ hse hΔ (i + 1) (by omega)
      push_cast at h
      linarith
    rw [min_eq_left hlt.le]
    simp only [Function.comp_apply, Nat.succ_eq_add_one]
    push_cast
    ring
  · unfold bucketEnd
    have hge : e ≤ s + ((m : ℚ) + 1) * Δ := by
      have h := end_le_last_timestamp s e Δ hse hΔ
      rw [hm] at h
      push_cast at h
      linarith
    rw [min_eq_right hge]

end Shc.Log

/-- **C10 counterexample.** `aggregate` applied to an *empty* list of log
entries still raises `TypeError` when an AVERAGE/MINIMUM/MAXIMUM aggregation
is requested for a non-numeric (string-typed) log variable: the type check at
generic.py lines 294-296 runs before the data is examined. -/
theorem Shc.Log.aggregate_empty_nonnumeric_error :
    aggregate [] LogValueType.tStr 0 120 AggregationMethod.AVERAGE 60 =
      .error "TypeError" := by
  have h2 : (⌈((120 : ℚ) - 0) / 60⌉) = 2 := by norm_num
  have hats : aggregation_timestamps 0 120 60 = [0, 60, 120] := by
    simp only [aggregation_timestamps, h2]
    norm_num [show List.range (Int.toNat 2) = [0, 1] from rfl,
      List.getLast?_cons_cons, List.getLast?_singleton]
  unfold aggregate
  rw [hats]
  norm_num [LogValueType.isNumeric]

/-- **C10 (amended).** For every `start < end` and positive aggregation
interval, and every aggregation method that is applicable to the variable's
value type (AVERAGE/MINIMUM/MAXIMUM require a numeric type — including
`bool`, a subclass of `int` in Python — while ON_TIME and ON_TIME_RATIO
accept any type), `aggregate` applied to an empty list of log entries returns
the empty list. -/
theorem Shc.Log.aggregate_empty_eq_nil (ty : LogValueType) (m : AggregationMethod)
    (s e Δ : ℚ) (hse : s < e) (hΔ : 0 < Δ)
    (hty : (m = .AVERAGE ∨ m = .MINIMUM ∨ m = .MAXIMUM) → ty.isNumeric = true) :
    aggregate [] ty s e m Δ = .ok [] := by
  have hcond : ¬((m = AggregationMethod.MINIMUM ∨ m = AggregationMethod.MAXIMUM ∨
      m = AggregationMethod.AVERAGE) ∧ ty.isNumeric = false) := by
    rintro ⟨h1, h2⟩
    have h := hty (by tauto)
    rw [h] at h2
    cases h2
  unfold aggregate
  rw [if_neg hΔ.ne']
  rw [aggregation_timestamps_eq s e Δ hse hΔ]
  obtain ⟨a, l, hal⟩ : ∃ a l,
      ((List.range (numAggregationIntervals s e Δ)).map
        fun i : ℕ => s + (i : ℚ) * Δ) ++ [e] = a :: l := by
    cases hh : (List.range (numAggregationIntervals s e Δ)).map
        fun i : ℕ => s + (i : ℚ) * Δ with
    | nil => exact ⟨e, [], by simp [hh]⟩
    | cons a l => exact ⟨a, l ++ [e], by simp [hh]⟩
  rw [hal]
  show (if (m = AggregationMethod.MINIMUM ∨ m = AggregationMethod.MAXIMUM ∨
      m = AggregationMethod.AVERAGE) ∧ ty.isNumeric = false
    then (Except.error "TypeError" : Except String (List (ℚ × ℚ)))
    else Except.ok []) = Except.ok []
  rw [if_neg hcond]

/-- Witness for C10: an ON_TIME aggregation over an empty string-typed log
returns the empty list. -/
theorem Shc.Log.aggregate_empty_eq_nil_witness :
    Shc.Log.aggregate [] Shc.Log.LogValueType.tStr 0 120
      Shc.Log.AggregationMethod.ON_TIME 60 = .ok [] :=
  Shc.Log.aggregate_empty_eq_nil Shc.Log.LogValueType.tStr
    Shc.Log.AggregationMethod.ON_TIME 0 120 60 (by norm_num) (by norm_num)
    (by intro h; rcases h with h | h | h <;> cases h)

namespace Shc.Log

/-- Dropping from `List.range`. -/
theorem range_drop (n : ℕ) : ∀ b : ℕ, (List.range n).drop b = List.range' b (n - b) := by
  intro b
  induction b with
  | zero => simp [List.range_eq_range']
  | succ b ih =>
    rw [show b + 1 = b + 1 from rfl, ← List.drop_drop, ih]
    cases hnb : n - b with
    | zero => simp [show n - (b + 1) = 0 by omega]
    | succ m =>
      rw [List.range'_succ]
      simp [show n - (b + 1) = m by omega]

/-- `fillRemainingLoop` emits exactly one entry per remaining aggregation
interval; the emitted timestamps are the interval starts. -/
theorem fillRemainingLoop_ok_map {σ : Type} (impl : AggImpl σ) (lv : ℚ) :
    ∀ (rest : List ℚ) (prev : ℚ) (result res : List (ℚ × ℚ)),
      fillRemainingLoop impl lv prev rest result = .ok res →
      res.map Prod.fst = result.map Prod.fst ++ (prev :: rest).dropLast := by
  intro rest
  induction rest with
  | nil =>
    intro prev result res h
    simp only [fillRemainingLoop, Except.ok.injEq] at h
    subst h
    simp
  | cons t rest ih =>
    intro prev result res h
    simp only [fillRemainingLoop] at h
    cases hg : impl.get (impl.step impl.reset prev t lv) with
    | error err => rw [hg] at h; cases h
    | ok v =>
      rw [hg] at h
      have hr := ih t (result ++ [(prev, v)]) res h
      rw [hr, List.dropLast_cons₂]
      simp

/-- `emptyIntervalsLoop` likewise emits one entry per interval it crosses;
both exits preserve the pending interval-start bookkeeping. -/
theorem emptyIntervalsLoop_ok_map {σ : Type} (impl : AggImpl σ) (ts lv : ℚ) :
    ∀ (rest : List ℚ) (prev cur : ℚ) (result : List (ℚ × ℚ))
      (out : (List (ℚ × ℚ)) ⊕ (ℚ × ℚ × List ℚ × List (ℚ × ℚ))),
      emptyIntervalsLoop impl ts lv prev cur rest result = .ok out →
      (∀ res, out = .inl res →
        res.map Prod.fst = result.map Prod.fst ++ (prev :: cur :: rest).dropLast) ∧
      (∀ p₂ c₂ r₂ res₂, out = .inr (p₂, c₂, r₂, res₂) →
        res₂.map Prod.fst ++ (p₂ :: c₂ :: r₂).dropLast =
          result.map Prod.fst ++ (prev :: cur :: rest).dropLast) := by
  intro rest
  induction rest with
  | nil =>
    intro prev cur result out h
    by_cases hts : ts ≥ cur
    · simp only [emptyIntervalsLoop, if_pos hts] at h
      cases hg : impl.get (impl.step impl.reset prev cur lv) with
      | error err => rw [hg] at h; cases h
      | ok v =>
        rw [hg] at h
        simp only [Except.ok.injEq] at h
        subst h
        constructor
        · intro res hres
          simp only [Sum.inl.injEq] at hres
          subst hres
          simp [List.dropLast]
        · intro p₂ c₂ r₂ res₂ hres
          cases hres
    · simp only [emptyIntervalsLoop, if_neg hts] at h
      simp only [Except.ok.injEq] at h
      subst h
      constructor
      · intro res hres; cases hres
      · intro p₂ c₂ r₂ res₂ hres
        simp only [Sum.inr.injEq, Prod.mk.injEq] at hres
        obtain ⟨h1, h2, h3, h4⟩ := hres
        subst h1; subst h2; subst h3; subst h4
        rfl
  | cons cur' rest' ih =>
    intro prev cur result out h
    by_cases hts : ts ≥ cur
    · simp only [emptyIntervalsLoop, if_pos hts] at h
      cases hg : impl.get (impl.step impl.reset prev cur lv) with
      | error err => rw [hg] at h; cases h
      | ok v =>
        rw [hg] at h
        have hr := ih cur cur' (result ++ [(prev, v)]) out h
        constructor
        · intro res hres
          have := hr.1 res hres
          rw [this, List.dropLast_cons₂]
          simp
        · intro p₂ c₂ r₂ res₂ hres
          have := hr.2 p₂ c₂ r₂ res₂ hres
          rw [this, List.dropLast_cons₂]
          simp
    · simp only [emptyIntervalsLoop, if_neg hts] at h
      simp only [Except.ok.injEq] at h
      subst h
      constructor
      · intro res hres; cases hres
      · intro p₂ c₂ r₂ res₂ hres
        simp only [Sum.inr.injEq, Prod.mk.injEq] at hres
        obtain ⟨h1, h2, h3, h4⟩ := hres
        subst h1; subst h2; subst h3; subst h4
        rfl

/-- The pending interval starts of a `mainLoop` state. -/
def pendingStarts (prev : Option ℚ) (cur : ℚ) (rest : List ℚ) : List ℚ :=
  match prev with
  | some p => (p :: cur :: rest).dropLast
  | none => (cur :: rest).dropLast

/-- Every successful run of `mainLoop` emits exactly one entry per pending
aggregation interval, timestamped with the interval starts, independent of
the data, the aggregator and its state. -/
theorem mainLoop_ok_map {σ : Type} (impl : AggImpl σ) :
    ∀ (data : List (ℚ × ℚ)) (prev : Option ℚ) (cur : ℚ) (rest : List ℚ)
      (lts lv : ℚ) (st : σ) (result res : List (ℚ × ℚ)),
      mainLoop impl data prev cur rest lts lv st result = .ok res →
      res.map Prod.fst = result.map Prod.fst ++ pendingStarts prev cur rest := by
  intro data
  induction data with
  | nil =>
    intro prev cur rest lts lv st result res h
    cases prev with
    | none =>
      simp only [mainLoop] at h
      exact fillRemainingLoop_ok_map impl lv rest cur result res h
    | some p =>
      cases hg : impl.get (impl.step st lts cur lv) with
      | error err => simp [mainLoop, hg] at h
      | ok v =>
        simp only [mainLoop, hg] at h
        have hr := fillRemainingLoop_ok_map impl lv rest cur (result ++ [(p, v)]) res h
        rw [hr]
        simp only [pendingStarts, List.dropLast_cons₂]
        simp
  | cons hd dataRest ih =>
    obtain ⟨ts, val⟩ := hd
    intro prev cur rest lts lv st result res h
    by_cases hts : ts ≥ cur
    · cases prev with
      | some p =>
        cases hg : impl.get (impl.step st lts cur lv) with
        | error err => simp [mainLoop, if_pos hts, hg] at h
        | ok v =>
          cases rest with
          | nil =>
            simp only [mainLoop, if_pos hts, hg, Except.ok.injEq] at h
            subst h
            simp only [pendingStarts, List.dropLast_cons₂, List.dropLast_single]
            simp
          | cons cur' rest' =>
            cases hE : emptyIntervalsLoop impl ts lv cur cur' rest' (result ++ [(p, v)]) with
            | error err => simp [mainLoop, if_pos hts, hg, hE] at h
            | ok out =>
              have hEm := emptyIntervalsLoop_ok_map impl ts lv rest' cur cur'
                (result ++ [(p, v)]) out hE
              cases out with
              | inl res₂ =>
                simp only [mainLoop, if_pos hts, hg, hE, Except.ok.injEq] at h
                subst h
                have h1 := hEm.1 _ rfl
                rw [h1]
                simp only [pendingStarts, List.dropLast_cons₂]
                simp
              | inr q =>
                obtain ⟨p₂, c₂, r₂, res₂⟩ := q
                simp only [mainLoop, if_pos hts, hg, hE] at h
                have h2 := ih (some p₂) c₂ r₂ ts val
                  (impl.step impl.reset (max lts p₂) ts lv) res₂ res h
                have h3 := hEm.2 p₂ c₂ r₂ res₂ rfl
                rw [h2]
                simp only [pendingStarts] at h3 ⊢
                rw [h3]
                simp only [List.dropLast_cons₂]
                simp
      | none =>
        cases rest with
        | nil =>
          simp only [mainLoop, if_pos hts, Except.ok.injEq] at h
          subst h
          simp [pendingStarts]
        | cons cur' rest' =>
          cases hE : emptyIntervalsLoop impl ts lv cur cur' rest' result with
          | error err => simp [mainLoop, if_pos hts, hE] at h
          | ok out =>
            have hEm := emptyIntervalsLoop_ok_map impl ts lv rest' cur cur' result out hE
            cases out with
            | inl res₂ =>
              simp only [mainLoop, if_pos hts, hE, Except.ok.injEq] at h
              subst h
              have h1 := hEm.1 _ rfl
              rw [h1]
              simp [pendingStarts]
            | inr q =>
              obtain ⟨p₂, c₂, r₂, res₂⟩ := q
              simp only [mainLoop, if_pos hts, hE] at h
              have h2 := ih (some p₂) c₂ r₂ ts val
                (impl.step impl.reset (max lts p₂) ts lv) res₂ res h
              have h3 := hEm.2 p₂ c₂ r₂ res₂ rfl
              rw [h2]
              simp only [pendingStarts] at h3 ⊢
              rw [h3]
    · simp only [mainLoop, if_neg hts] at h
      exact ih prev cur rest ts val _ result res h

end Shc.Log

namespace Shc.Log

/-- When every aggregation timestamp is at most the first entry's timestamp
the skip loop runs off the end of the list (the `return []` at line 323). -/
theorem skipLoop_all_le (t : ℚ) :
    ∀ (rest : List ℚ) (prev : Option ℚ) (cur : ℚ),
      (∀ x ∈ cur :: rest, x ≤ t) → skipLoop t prev cur rest = none := by
  intro rest
  induction rest with
  | nil =>
    intro prev cur hall
    simp only [skipLoop]
    rw [if_pos (hall cur (by simp))]
  | cons c' r' ih =>
    intro prev cur hall
    simp only [skipLoop]
    rw [if_pos (hall cur (by simp))]
    exact ih (some cur) c' (fun x hx => hall x (List.mem_cons_of_mem cur hx))

/-- The head of `dropWhile` fails the predicate. -/
theorem dropWhile_cons_head_false {α : Type} (p : α → Bool) :
    ∀ (l : List α) (c : α) (r : List α), l.dropWhile p = c :: r → p c = false := by
  intro l
  induction l with
  | nil => intro c r h; cases h
  | cons x xs ih =>
    intro c r h
    rw [List.dropWhile_cons] at h
    by_cases hpx : p x = true
    · rw [if_pos hpx] at h
      exact ih c r h
    · rw [if_neg hpx] at h
      injection h with h1 _
      rw [← h1]
      simpa using hpx

/-- The skip loop stops at the first timestamp greater than the first entry's
timestamp: if the timestamps split as `A ++ c :: r` with everything in `A` at
most `t` and `t < c`, the loop returns the suffix `c :: r` and, as the
previous timestamp, the last element of `A` (or the initial `prev` when `A`
is empty). -/
theorem skipLoop_split (t : ℚ) :
    ∀ (A : List ℚ) (prev : Option ℚ) (cur : ℚ) (rest : List ℚ) (c : ℚ) (r : List ℚ),
      cur :: rest = A ++ c :: r →
      (∀ x ∈ A, x ≤ t) →
      t < c →
      skipLoop t prev cur rest =
        some ((match A.getLast? with | some a => some a | none => prev), c, r) := by
  intro A
  induction A with
  | nil =>
    intro prev cur rest c r hsplit hA hc
    simp only [List.nil_append] at hsplit
    injection hsplit with h1 h2
    subst h1; subst h2
    cases rest with
    | nil =>
      simp only [skipLoop, List.getLast?_nil]
      rw [if_neg (not_le.mpr hc)]
    | cons c' r' =>
      simp only [skipLoop, List.getLast?_nil]
      rw [if_neg (not_le.mpr hc)]
  | cons a A' ih =>
    intro prev cur rest c r hsplit hA hc
    rw [List.cons_append] at hsplit
    injection hsplit with h1 h2
    subst h1; subst h2
    cases A' with
    | nil =>
      simp only [List.nil_append, skipLoop]
      rw [if_pos (hA cur (by simp))]
      have hr := ih (some cur) c r c r rfl (by intro x hx; cases hx) hc
      rw [hr, List.getLast?_singleton]
      rfl
    | cons a' A'' =>
      simp only [List.cons_append, skipLoop]
      rw [if_pos (hA cur (by simp))]
      simp only [List.append_eq]
      have hr := ih (some cur) a' (A'' ++ c :: r) c r rfl
        (fun x hx => hA x (List.mem_cons_of_mem cur hx)) hc
      rw [hr, List.getLast?_cons_cons,
        List.getLast?_eq_getLast (a' :: A'') (List.cons_ne_nil _ _)]

end Shc.Log

/-- **C4.** For every non-empty log and every query window `start < end` with
positive aggregation interval Δ, whenever `aggregate` succeeds, the
timestamps of its result are exactly `start + k·Δ` for consecutive integers
`k` starting at the number of leading buckets lying entirely before the first
available sample, and its length is `⌈(end−start)/Δ⌉` minus that number of
leading buckets. -/
theorem Shc.Log.aggregate_bucket_structure
    (ty : LogValueType) (m : AggregationMethod) (s e Δ t₀ v₀ : ℚ)
    (dtl res : List (ℚ × ℚ))
    (hse : s < e) (hΔ : 0 < Δ)
    (hok : aggregate ((t₀, v₀) :: dtl) ty s e m Δ = .ok res) :
    res.map Prod.fst =
      (List.range' (leadingEmptyIntervals s e Δ t₀)
        (numAggregationIntervals s e Δ - leadingEmptyIntervals s e Δ t₀)).map
        (fun k : ℕ => s + (k : ℚ) * Δ) ∧
    res.length = numAggregationIntervals s e Δ - leadingEmptyIntervals s e Δ t₀ := by
  have hats := aggregation_timestamps_eq s e Δ hse hΔ
  have hsorted := aggregation_timestamps_sorted s e Δ hse hΔ
  have htail := aggregation_timestamps_tail_eq s e Δ hse hΔ
  have hL : leadingEmptyIntervals s e Δ t₀ =
      ((aggregation_timestamps s e Δ).tail).countP (fun x => decide (x ≤ t₀)) := by
    rw [htail, List.countP_map]; rfl
  have hlenAts : (aggregation_timestamps s e Δ).length =
      numAggregationIntervals s e Δ + 1 := by
    rw [hats]; simp
  have hdropLast : (aggregation_timestamps s e Δ).dropLast =
      (List.range (numAggregationIntervals s e Δ)).map
        (fun i : ℕ => s + (i : ℚ) * Δ) := by
    rw [hats, List.dropLast_concat]
  unfold aggregate at hok
  rw [if_neg hΔ.ne'] at hok
  cases hAts : aggregation_timestamps s e Δ with
  | nil => rw [hAts] at hats; exact absurd hats (by simp)
  | cons at0 atRest =>
    rw [hAts] at hok
    by_cases hC : (m = AggregationMethod.MINIMUM ∨ m = AggregationMethod.MAXIMUM ∨
        m = AggregationMethod.AVERAGE) ∧ ty.isNumeric = false
    · simp only [if_pos hC] at hok
      cases hok
    · simp only [if_neg hC] at hok
      -- split the timestamps at the first entry's timestamp
      have hsplitAB := List.takeWhile_append_dropWhile
        (fun x : ℚ => decide (x ≤ t₀)) (at0 :: atRest)
      have hAle : ∀ x ∈ (at0 :: atRest).takeWhile (fun x : ℚ => decide (x ≤ t₀)),
          x ≤ t₀ := by
        intro x hx
        have := List.mem_takeWhile_imp hx
        simpa using this
      by_cases hBnil : (at0 :: atRest).dropWhile (fun x : ℚ => decide (x ≤ t₀)) = []
      · -- every timestamp is ≤ t₀: skip loop returns `none`, result is []
        have hall : ∀ x ∈ at0 :: atRest, x ≤ t₀ := by
          rw [List.dropWhile_eq_nil_iff] at hBnil
          intro x hx
          have := hBnil x hx
          simpa using this
        have hskip := skipLoop_all_le t₀ atRest none at0 hall
        rw [hskip] at hok
        have hres : res = [] := by
          cases m <;> (simp only [Except.ok.injEq] at hok; exact hok.symm)
        have hLn : leadingEmptyIntervals s e Δ t₀ = numAggregationIntervals s e Δ := by
          rw [hL]
          rw [List.countP_eq_length.mpr ?_]
          · rw [hAts] at hlenAts ⊢
            simp only [List.tail_cons]
            simp at hlenAts
            omega
          · intro x hx
            rw [hAts] at hx
            simp only [List.tail_cons] at hx
            simpa using hall x (List.mem_cons_of_mem at0 hx)
        rw [hres, hLn]
        simp
      · -- the skip loop stops at the first timestamp > t₀
        obtain ⟨c, r, hB⟩ := List.exists_cons_of_ne_nil hBnil
        have hc : t₀ < c := by
          have hpc := dropWhile_cons_head_false (fun x : ℚ => decide (x ≤ t₀))
            (at0 :: atRest) c r hB
          exact not_le.mp (by simpa using hpc)
        have hACR : at0 :: atRest =
            ((at0 :: atRest).takeWhile (fun x : ℚ => decide (x ≤ t₀))) ++ c :: r := by
          rw [← hB, hsplitAB]
        have hskip := skipLoop_split t₀
          ((at0 :: atRest).takeWhile (fun x : ℚ => decide (x ≤ t₀)))
          none at0 atRest c r hACR hAle hc
        rw [hskip] at hok
        have hmap : res.map Prod.fst = pendingStarts
            (match ((at0 :: atRest).takeWhile (fun x : ℚ => decide (x ≤ t₀))).getLast? with
             | some a => some a | none => none) c r := by
          cases m <;>
            simpa using mainLoop_ok_map _ dtl _ c r t₀ v₀ _ [] res hok
        -- the suffix `c :: r` is sorted and entirely above t₀
        have hsortedACR : (((at0 :: atRest).takeWhile (fun x : ℚ => decide (x ≤ t₀))) ++
            c :: r).Pairwise (· < ·) := by
          rw [← hACR, ← hAts]; exact hsorted
        have hPcr : (c :: r).Pairwise (· < ·) := (List.pairwise_append.mp hsortedACR).2.1
        have hrgt : ∀ x ∈ r, t₀ < x := fun x hx =>
          lt_trans hc ((List.pairwise_cons.mp hPcr).1 x hx)
        cases hA : (at0 :: atRest).takeWhile (fun x : ℚ => decide (x ≤ t₀)) with
        | nil =>
          -- the first timestamp already exceeds t₀: no bucket is skipped
          rw [hA] at hACR hmap
          simp only [List.nil_append] at hACR
          simp only [List.getLast?_nil, pendingStarts] at hmap
          have hL0 : leadingEmptyIntervals s e Δ t₀ = 0 := by
            rw [hL, List.countP_eq_zero]
            intro x hx
            rw [hAts] at hx
            simp only [List.tail_cons] at hx
            injection hACR with hc1 hc2
            subst hc1; subst hc2
            simpa using not_le.mpr (hrgt x hx)
          have hcr : (c :: r).dropLast =
              (List.range (numAggregationIntervals s e Δ)).map
                (fun i : ℕ => s + (i : ℚ) * Δ) := by
            rw [← hdropLast, hAts, hACR]
          constructor
          · rw [hmap, hcr, hL0, Nat.sub_zero, List.range_eq_range']
          · rw [← List.length_map res Prod.fst, hmap, hcr, hL0, Nat.sub_zero]
            simp
        | cons a A' =>
          -- k = |A| buckets were walked over; the loop emits from bucket k-1 on
          rw [hA] at hACR hmap
          have hAne : a :: A' ≠ [] := List.cons_ne_nil a A'
          have hlastEq : (a :: A').getLast? = some ((a :: A').getLast hAne) :=
            List.getLast?_eq_getLast _ hAne
          rw [hlastEq] at hmap
          simp only [pendingStarts] at hmap
          -- pending starts = (ats.dropLast).drop (|A| - 1)
          have hdropAts : (aggregation_timestamps s e Δ).dropLast =
              (a :: A') ++ (c :: r).dropLast := by
            rw [hAts, hACR, List.dropLast_append_cons]
          have hlen1 : ((a :: A').dropLast).length = (a :: A').length - 1 :=
            List.length_dropLast _
          have hdropday : ((aggregation_timestamps s e Δ).dropLast).drop
              ((a :: A').length - 1) =
              (a :: A').getLast hAne :: (c :: r).dropLast := by
            rw [hdropAts]
            calc ((a :: A') ++ (c :: r).dropLast).drop ((a :: A').length - 1)
                = ((a :: A').dropLast ++
                    ([(a :: A').getLast hAne] ++ (c :: r).dropLast)).drop
                    ((a :: A').length - 1) := by
                  rw [← List.append_assoc, List.dropLast_append_getLast hAne]
              _ = [(a :: A').getLast hAne] ++ (c :: r).dropLast := List.drop_left' hlen1
              _ = (a :: A').getLast hAne :: (c :: r).dropLast := rfl
          -- the number of leading empty buckets is |A| - 1
          have hLk : leadingEmptyIntervals s e Δ t₀ = (a :: A').length - 1 := by
            rw [hL]
            have htl : (aggregation_timestamps s e Δ).tail = A' ++ c :: r := by
              have h2 := congrArg List.tail hACR
              simp only [List.tail_cons] at h2
              rw [hAts, List.tail_cons]
              exact h2
            rw [htl, List.countP_append]
            have hA'all : List.countP (fun x : ℚ => decide (x ≤ t₀)) A' = A'.length :=
              List.countP_eq_length.mpr (fun x hx => by
                simpa using hAle x (by rw [hA]; exact List.mem_cons_of_mem a hx))
            have hcr0 : List.countP (fun x : ℚ => decide (x ≤ t₀)) (c :: r) = 0 := by
              rw [List.countP_eq_zero]
              intro x hx
              rcases List.mem_cons.mp hx with hx | hx
              · subst hx; simpa using not_le.mpr hc
              · simpa using not_le.mpr (hrgt x hx)
            rw [hA'all, hcr0]
            simp
          have hmapc : List.map Prod.fst res =
              (a :: A').getLast hAne :: (c :: r).dropLast := by
            rw [hmap, List.dropLast_cons₂]
          constructor
          · rw [hmapc, ← hdropday, hdropLast, ← List.map_drop, range_drop, hLk]
          · rw [← List.length_map res Prod.fst, hmapc, ← hdropday, hdropLast,
              ← List.map_drop, range_drop, hLk]
            simp

/-- Witness for C4: spec scenario S3 — log entries `(0,0), (30,10), (60,20)`
aggregated with AVERAGE over `[0, 120)` in 60-second buckets yield entries at
`0` and `60`, two buckets with no leading empty bucket. -/
theorem Shc.Log.aggregate_bucket_structure_witness :
    ([((0 : ℚ), (5 : ℚ)), (60, 20)]).map Prod.fst =
      (List.range' (leadingEmptyIntervals 0 120 60 0)
        (numAggregationIntervals 0 120 60 - leadingEmptyIntervals 0 120 60 0)).map
        (fun k : ℕ => 0 + (k : ℚ) * 60) ∧
    ([((0 : ℚ), (5 : ℚ)), (60, 20)]).length =
      numAggregationIntervals 0 120 60 - leadingEmptyIntervals 0 120 60 0 := by
  have h2 : (⌈((120 : ℚ) - 0) / 60⌉) = 2 := by norm_num
  have hats : aggregation_timestamps 0 120 60 = [0, 60, 120] := by
    simp only [aggregation_timestamps, h2]
    norm_num [show List.range (Int.toNat 2) = [0, 1] from rfl,
      List.getLast?_cons_cons, List.getLast?_singleton]
  have hok : aggregate [(0, 0), (30, 10), (60, 20)] LogValueType.tInt 0 120
      AggregationMethod.AVERAGE 60 = .ok [(0, 5), (60, 20)] := by
    unfold aggregate
    rw [hats]
    norm_num [LogValueType.isNumeric, skipLoop, mainLoop, emptyIntervalsLoop,
      fillRemainingLoop, AverageAggregator]
  exact Shc.Log.aggregate_bucket_structure LogValueType.tInt
    AggregationMethod.AVERAGE 0 120 60 0 0 [(30, 10), (60, 20)] [(0, 5), (60, 20)]
    (by norm_num) (by norm_num) hok

namespace Shc.Log

/-- A sequence of `aggregate(start, end, value)` calls on an aggregator after
`reset()` (the protocol described at generic.py lines 387-401). -/
def runAggregator {σ : Type} (impl : AggImpl σ) (calls : List (ℚ × ℚ × ℚ)) : σ :=
  calls.foldl (fun st c => impl.step st c.1 c.2.1 c.2.2) impl.reset

/-- Total duration of the supplied intervals. -/
def totalDuration (calls : List (ℚ × ℚ × ℚ)) : ℚ :=
  (calls.map (fun c => c.2.1 - c.1)).sum

/-- Bounds for a fold of `OnTimeAggregator.aggregate` steps starting from an
arbitrary state. -/
theorem onTime_foldl_bounds :
    ∀ (calls : List (ℚ × ℚ × ℚ)) (st : ℚ),
      (∀ c ∈ calls, c.1 ≤ c.2.1) →
      st ≤ calls.foldl (fun st c => OnTimeAggregator.step st c.1 c.2.1 c.2.2) st ∧
      calls.foldl (fun st c => OnTimeAggregator.step st c.1 c.2.1 c.2.2) st ≤
        st + totalDuration calls := by
  intro calls
  induction calls with
  | nil => intro st _; simp [totalDuration]
  | cons c cs ih =>
    intro st hc
    obtain ⟨s, e, v⟩ := c
    have hse : s ≤ e := hc (s, e, v) (by simp)
    have hrest := ih (OnTimeAggregator.step st s e v)
      (fun c hc' => hc c (List.mem_cons_of_mem _ hc'))
    have hstep : st ≤ OnTimeAggregator.step st s e v ∧
        OnTimeAggregator.step st s e v ≤ st + (e - s) := by
      simp only [OnTimeAggregator]
      by_cases hv : v ≠ 0
      · rw [if_pos hv]; constructor <;> linarith
      · rw [if_neg hv]; constructor <;> linarith
    constructor
    · calc st ≤ OnTimeAggregator.step st s e v := hstep.1
        _ ≤ _ := hrest.1
    · calc List.foldl (fun st c => OnTimeAggregator.step st c.1 c.2.1 c.2.2)
            (OnTimeAggregator.step st s e v) cs
          ≤ OnTimeAggregator.step st s e v + totalDuration cs := hrest.2
        _ ≤ st + (e - s) + totalDuration cs := by linarith [hstep.2]
        _ = st + totalDuration ((s, e, v) :: cs) := by
            simp [totalDuration]; ring
    -- the foldl over the cons list
    -- (handled definitionally by foldl_cons)

/-- Invariant of the `OnTimeRatioAggregator` state under the aggregate steps:
the truthy time is between 0 and the total time. -/
theorem onTimeRatio_foldl_invariant :
    ∀ (calls : List (ℚ × ℚ × ℚ)) (st : ℚ × ℚ),
      (∀ c ∈ calls, c.1 ≤ c.2.1) →
      0 ≤ st.1 → st.1 ≤ st.2 →
      0 ≤ (calls.foldl (fun st c => OnTimeRatioAggregator.step st c.1 c.2.1 c.2.2) st).1 ∧
      (calls.foldl (fun st c => OnTimeRatioAggregator.step st c.1 c.2.1 c.2.2) st).1 ≤
        (calls.foldl (fun st c => OnTimeRatioAggregator.step st c.1 c.2.1 c.2.2) st).2 := by
  intro calls
  induction calls with
  | nil => intro st _ h1 h2; exact ⟨h1, h2⟩
  | cons c cs ih =>
    intro st hc h1 h2
    obtain ⟨s, e, v⟩ := c
    have hse : s ≤ e := hc (s, e, v) (by simp)
    have hstep : 0 ≤ (OnTimeRatioAggregator.step st s e v).1 ∧
        (OnTimeRatioAggregator.step st s e v).1 ≤ (OnTimeRatioAggregator.step st s e v).2 := by
      have hs1 : (OnTimeRatioAggregator.step st s e v).1 =
          if v ≠ 0 then st.1 + (e - s) else st.1 := rfl
      have hs2 : (OnTimeRatioAggregator.step st s e v).2 = st.2 + (e - s) := rfl
      rw [hs1, hs2]
      by_cases hv : v ≠ 0
      · rw [if_pos hv]; constructor <;> linarith
      · rw [if_neg hv]; constructor <;> linarith
    exact ih (OnTimeRatioAggregator.step st s e v)
      (fun c hc' => hc c (List.mem_cons_of_mem _ hc')) hstep.1 hstep.2

end Shc.Log

/-- **C6 (amended).** For every sequence of `aggregate(start, end, value)`
calls with `start ≤ end` performed after `reset()`, `OnTimeAggregator.get()`
is non-negative and at most the total duration of the supplied intervals, and
whenever `OnTimeRatioAggregator.get()` returns a value (its division raises
`ZeroDivisionError` when the total supplied duration is zero, e.g. for an
empty call sequence), that value lies in `[0, 1]`. -/
theorem Shc.Log.on_time_aggregator_bounds (calls : List (ℚ × ℚ × ℚ))
    (h : ∀ c ∈ calls, c.1 ≤ c.2.1) :
    (0 ≤ runAggregator OnTimeAggregator calls ∧
     runAggregator OnTimeAggregator calls ≤ totalDuration calls ∧
     OnTimeAggregator.get (runAggregator OnTimeAggregator calls) =
       .ok (runAggregator OnTimeAggregator calls)) ∧
    (∀ r, OnTimeRatioAggregator.get (runAggregator OnTimeRatioAggregator calls) = .ok r →
      0 ≤ r ∧ r ≤ 1) := by
  constructor
  · have hb := onTime_foldl_bounds calls 0 h
    have hreset : (OnTimeAggregator.reset : ℚ) = 0 := rfl
    refine ⟨?_, ?_, rfl⟩
    · unfold runAggregator
      rw [hreset]
      exact hb.1
    · unfold runAggregator
      rw [hreset]
      have := hb.2
      linarith
  · intro r hr
    have hinv := onTimeRatio_foldl_invariant calls (0, 0) h le_rfl le_rfl
    unfold runAggregator at hr
    have hreset : (OnTimeRatioAggregator.reset : ℚ × ℚ) = (0, 0) := rfl
    rw [hreset] at hr
    set st := calls.foldl
      (fun st c => OnTimeRatioAggregator.step st c.1 c.2.1 c.2.2) ((0 : ℚ), (0 : ℚ)) with hst
    simp only [OnTimeRatioAggregator] at hr
    by_cases hz : st.2 = 0
    · rw [if_pos hz] at hr; cases hr
    · rw [if_neg hz] at hr
      simp only [Except.ok.injEq] at hr
      subst hr
      have h2pos : 0 < st.2 := lt_of_le_of_ne (le_trans hinv.1 hinv.2) (Ne.symm hz)
      constructor
      · exact div_nonneg hinv.1 h2pos.le
      · rw [div_le_one h2pos]
        exact hinv.2

/-- **C6 counterexample.** After `reset()` alone (no aggregate calls),
`OnTimeRatioAggregator.get()` raises `ZeroDivisionError` (`value /
total_time` with a zero total), rather than returning a value in `[0, 1]`. -/
theorem Shc.Log.on_time_ratio_empty_raises :
    OnTimeRatioAggregator.get (runAggregator OnTimeRatioAggregator []) =
      .error "ZeroDivisionError" := by
  rfl

/-- Witness for C6: spec scenario S4 — a boolean log false/true/false at
`t = 0, 20, 50` over a 60-second bucket gives ON_TIME `30` and ratio `1/2`. -/
theorem Shc.Log.on_time_aggregator_bounds_witness :
    ((0 : ℚ) ≤ runAggregator OnTimeAggregator [(0, 20, 0), (20, 50, 1), (50, 60, 0)] ∧
     runAggregator OnTimeAggregator [(0, 20, 0), (20, 50, 1), (50, 60, 0)] ≤
       totalDuration [(0, 20, 0), (20, 50, 1), (50, 60, 0)] ∧
     OnTimeAggregator.get
       (runAggregator OnTimeAggregator [(0, 20, 0), (20, 50, 1), (50, 60, 0)]) =
       .ok (runAggregator OnTimeAggregator [(0, 20, 0), (20, 50, 1), (50, 60, 0)])) ∧
    (∀ r, OnTimeRatioAggregator.get
        (runAggregator OnTimeRatioAggregator [(0, 20, 0), (20, 50, 1), (50, 60, 0)]) =
        .ok r → 0 ≤ r ∧ r ≤ 1) := by
  exact Shc.Log.on_time_aggregator_bounds [(0, 20, 0), (20, 50, 1), (50, 60, 0)]
    (by norm_num)


namespace Shc.Log

/-! ### Time-weighted averages (specification side, for C5)

The spec describes AVERAGE as the "time-weighted mean over the bucket; value
weight = duration it was in effect within bucket", with the last value
carried forward.  The following definitions state that directly: an entry
`(t, v)` is in effect from `t` until the next entry's timestamp (the last
entry is carried forward to the end of the window). -/

/-- Integral of the log's carried-forward step function over the window
`[a, b]`: each entry contributes its value times the overlap of its validity
interval with the window. -/
def stepIntegral (a b : ℚ) : List (ℚ × ℚ) → ℚ
  | [] => 0
  | (t, v) :: rest =>
    match rest with
    | [] => v * max 0 (b - max t a)
    | (t', _) :: _ => v * max 0 (min t' b - max t a) + stepIntegral a b rest

/-- Total duration during which any value was in effect within `[a, b]`:
the integral of the constant-1 step function with the same breakpoints. -/
def stepWeight (a b : ℚ) (data : List (ℚ × ℚ)) : ℚ :=
  stepIntegral a b (data.map (fun d => (d.1, 1)))

/-- Time-weighted mean of the values in effect during `[a, b]`, each value
weighted by the duration it was in effect within the window. -/
def timeWeightedMean (data : List (ℚ × ℚ)) (a b : ℚ) : ℚ :=
  stepIntegral a b data / stepWeight a b data

theorem stepIntegral_nil (a b : ℚ) : stepIntegral a b [] = 0 := rfl

theorem stepIntegral_single (a b t v : ℚ) :
    stepIntegral a b [(t, v)] = v * max 0 (b - max t a) := rfl

theorem stepIntegral_cons₂ (a b t v t' v' : ℚ) (rest : List (ℚ × ℚ)) :
    stepIntegral a b ((t, v) :: (t', v') :: rest) =
      v * max 0 (min t' b - max t a) + stepIntegral a b ((t', v') :: rest) := rfl

theorem clamp_split_core (x y mm : ℚ) :
    max 0 (y - x) = max 0 (min y mm - x) + max 0 (y - max x mm) := by
  rcases le_total y mm with h1 | h1 <;> rcases le_total x mm with h2 | h2
  · rw [min_eq_left h1, max_eq_right h2, max_eq_left (by linarith : y - mm ≤ 0)]
    ring
  · rw [min_eq_left h1, max_eq_left h2, max_eq_left (by linarith : y - x ≤ 0)]
    ring
  · rw [min_eq_right h1, max_eq_right h2,
      max_eq_right (by linarith : (0:ℚ) ≤ mm - x),
      max_eq_right (by linarith : (0:ℚ) ≤ y - mm),
      max_eq_right (by linarith : (0:ℚ) ≤ y - x)]
    ring
  · rw [min_eq_right h1, max_eq_left h2, max_eq_left (by linarith : mm - x ≤ 0)]
    ring

/-- A clamped interval length splits at any interior point. -/
theorem clamp_split (t u a mm b : ℚ) (ham : a ≤ mm) (hmb : mm ≤ b) :
    max 0 (min u b - max t a) =
      max 0 (min u mm - max t a) + max 0 (min u b - max t mm) := by
  have h1 : min u mm = min (min u b) mm := by
    rw [min_assoc, min_eq_right hmb]
  have h2 : max t mm = max (max t a) mm := by
    rw [max_assoc, max_eq_right ham]
  rw [h1, h2]
  exact clamp_split_core (max t a) (min u b) mm

/-- Entries lying entirely at or after the window contribute nothing. -/
theorem stepIntegral_eq_zero_of_ge (a b : ℚ) :
    ∀ (l : List (ℚ × ℚ)), (∀ d ∈ l, b ≤ d.1) → stepIntegral a b l = 0 := by
  intro l
  induction l with
  | nil => intro _; rfl
  | cons d rest ih =>
    intro hl
    obtain ⟨t, v⟩ := d
    have hbt : b ≤ t := hl (t, v) (by simp)
    cases rest with
    | nil =>
      rw [stepIntegral_single]
      have h0 : b - max t a ≤ 0 := by
        have : t ≤ max t a := le_max_left _ _
        linarith
      rw [max_eq_left h0]
      ring
    | cons d' rest' =>
      obtain ⟨t', v'⟩ := d'
      rw [stepIntegral_cons₂]
      have h0 : min t' b - max t a ≤ 0 := by
        have h1 : min t' b ≤ b := min_le_right _ _
        have h2 : t ≤ max t a := le_max_left _ _
        linarith
      rw [max_eq_left h0,
        ih (fun d hd => hl d (List.mem_cons_of_mem _ hd))]
      ring

/-- Over a window `[a, b]` during which the single entry `(lts, lv)` is in
effect (all earlier entries have timestamps at most `lts ≤ a`, all later
entries start at or after `b`), the step integral is `lv * (b - a)`. -/
theorem stepIntegral_const (a b lts lv : ℚ) :
    ∀ (done remaining : List (ℚ × ℚ)),
      (∀ d ∈ done, d.1 ≤ lts) → (∀ d ∈ remaining, b ≤ d.1) →
      lts ≤ a → a ≤ b →
      stepIntegral a b (done ++ (lts, lv) :: remaining) = lv * (b - a) := by
  intro done
  induction done with
  | nil =>
    intro remaining _ hrem hla hab
    cases remaining with
    | nil =>
      rw [List.nil_append, stepIntegral_single, max_eq_right hla,
        max_eq_right (by linarith : (0 : ℚ) ≤ b - a)]
    | cons d' rem' =>
      obtain ⟨t', v'⟩ := d'
      have hbt' : b ≤ t' := hrem (t', v') (by simp)
      rw [List.nil_append, stepIntegral_cons₂, min_eq_right hbt',
        max_eq_right hla, max_eq_right (by linarith : (0 : ℚ) ≤ b - a),
        stepIntegral_eq_zero_of_ge a b ((t', v') :: rem') hrem]
      ring
  | cons d done' ih =>
    intro remaining hdone hrem hla hab
    obtain ⟨t, v⟩ := d
    have htl : t ≤ lts := hdone (t, v) (by simp)
    have hzero : ∀ u : ℚ, u ≤ lts → v * max 0 (min u b - max t a) = 0 := by
      intro u hu
      have h0 : min u b - max t a ≤ 0 := by
        have h1 : min u b ≤ u := min_le_left _ _
        have h2 : a ≤ max t a := le_max_right _ _
        linarith
      rw [max_eq_left h0]
      ring
    cases done' with
    | nil =>
      rw [List.cons_append, List.nil_append, stepIntegral_cons₂,
        hzero lts le_rfl]
      have hih := ih remaining (by intro d hd; cases hd) hrem hla hab
      rw [List.nil_append] at hih
      rw [hih]
      ring
    | cons d2 done'' =>
      obtain ⟨t2, v2⟩ := d2
      have ht2 : t2 ≤ lts := hdone (t2, v2) (by simp)
      rw [List.cons_append, List.cons_append, stepIntegral_cons₂,
        hzero t2 ht2]
      have hih := ih remaining
        (fun d hd => hdone d (List.mem_cons_of_mem _ hd)) hrem hla hab
      rw [List.cons_append] at hih
      rw [hih]
      ring

/-- The step integral over `[a, b]` splits at any interior point `mm`. -/
theorem stepIntegral_split (a mm b : ℚ) (ham : a ≤ mm) (hmb : mm ≤ b) :
    ∀ (l : List (ℚ × ℚ)),
      stepIntegral a b l = stepIntegral a mm l + stepIntegral mm b l := by
  intro l
  induction l with
  | nil => simp [stepIntegral_nil]
  | cons d rest ih =>
    obtain ⟨t, v⟩ := d
    cases rest with
    | nil =>
      rw [stepIntegral_single, stepIntegral_single, stepIntegral_single]
      have h := clamp_split t b a mm b ham hmb
      rw [min_self, min_eq_right hmb] at h
      rw [h]
      ring
    | cons d' rest' =>
      obtain ⟨t', v'⟩ := d'
      rw [stepIntegral_cons₂, stepIntegral_cons₂, stepIntegral_cons₂, ih,
        clamp_split t t' a mm b ham hmb]
      ring

theorem stepWeight_const (a b lts lv : ℚ) (done remaining : List (ℚ × ℚ))
    (hdone : ∀ d ∈ done, d.1 ≤ lts) (hrem : ∀ d ∈ remaining, b ≤ d.1)
    (hla : lts ≤ a) (hab : a ≤ b) :
    stepWeight a b (done ++ (lts, lv) :: remaining) = b - a := by
  unfold stepWeight
  rw [List.map_append, List.map_cons]
  have h := stepIntegral_const a b lts 1
    (done.map (fun d => (d.1, 1)))
    (remaining.map (fun d => (d.1, 1)))
    (by
      intro d hd
      obtain ⟨d0, hd0, hde⟩ := List.mem_map.mp hd
      rw [← hde]
      exact hdone d0 hd0)
    (by
      intro d hd
      obtain ⟨d0, hd0, hde⟩ := List.mem_map.mp hd
      rw [← hde]
      exact hrem d0 hd0)
    hla hab
  rw [h]
  ring

theorem stepWeight_split (a mm b : ℚ) (ham : a ≤ mm) (hmb : mm ≤ b)
    (l : List (ℚ × ℚ)) :
    stepWeight a b l = stepWeight a mm l + stepWeight mm b l := by
  unfold stepWeight
  exact stepIntegral_split a mm b ham hmb _

theorem stepWeight_eq_zero_of_ge (a b : ℚ) (l : List (ℚ × ℚ))
    (hl : ∀ d ∈ l, b ≤ d.1) : stepWeight a b l = 0 := by
  unfold stepWeight
  apply stepIntegral_eq_zero_of_ge
  intro d hd
  obtain ⟨d0, hd0, hde⟩ := List.mem_map.mp hd
  rw [← hde]
  exact hl d0 hd0

/-- The list of consecutive pairs of a list of timestamps: each pair is an
aggregation bucket `[fst, snd)`. -/
def consecPairs : List ℚ → List (ℚ × ℚ)
  | [] => []
  | [_] => []
  | x :: y :: rest => (x, y) :: consecPairs (y :: rest)

theorem consecPairs_nil : consecPairs [] = [] := rfl

theorem consecPairs_single (x : ℚ) : consecPairs [x] = [] := rfl

theorem consecPairs_cons₂ (x y : ℚ) (rest : List ℚ) :
    consecPairs (x :: y :: rest) = (x, y) :: consecPairs (y :: rest) := rfl

/-- Consecutive pairs of a suffix are consecutive pairs of the whole list. -/
theorem consecPairs_append_subset :
    ∀ (pre l : List ℚ) (qp : ℚ × ℚ),
      qp ∈ consecPairs l → qp ∈ consecPairs (pre ++ l) := by
  intro pre
  induction pre with
  | nil => intro l qp h; simpa using h
  | cons x pre' ih =>
    intro l qp h
    have h2 := ih l qp h
    cases hpl : pre' ++ l with
    | nil =>
      rw [hpl, consecPairs_nil] at h2
      cases h2
    | cons z zs =>
      rw [List.cons_append, hpl, consecPairs_cons₂]
      rw [hpl] at h2
      exact List.mem_cons_of_mem _ h2

/-- In a list chained by `R`, every consecutive pair is `R`-related. -/
theorem chain_consecPairs {R : ℚ → ℚ → Prop} :
    ∀ (l : List ℚ), List.Chain' R l → ∀ qp ∈ consecPairs l, R qp.1 qp.2 := by
  intro l
  induction l with
  | nil =>
    intro _ qp h
    rw [consecPairs_nil] at h
    cases h
  | cons x xs ih =>
    intro hch qp hqp
    cases xs with
    | nil =>
      rw [consecPairs_single] at hqp
      cases hqp
    | cons y ys =>
      rw [consecPairs_cons₂] at hqp
      rcases List.mem_cons.mp hqp with h1 | h1
      · subst h1
        exact (List.chain'_cons.mp hch).1
      · exact ih (List.chain'_cons.mp hch).2 qp h1

/-- A result entry `(t, v)` is a correct time-weighted average for some
bucket `(t, qe)` drawn from the bucket list `S`. -/
def bucketValueOk (full S : List (ℚ × ℚ)) (pr : ℚ × ℚ) : Prop :=
  ∃ qe, (pr.1, qe) ∈ S ∧ pr.2 = timeWeightedMean full pr.1 qe

/-- The aggregation-timestamp suffix seen by `mainLoop`, including the start
of the interval currently being accumulated (if any). -/
def chainOf (prev : Option ℚ) (cur : ℚ) (rest : List ℚ) : List ℚ :=
  match prev with
  | some p => p :: cur :: rest
  | none => cur :: rest

/-- When the aggregator state holds the step integral and weight of the full
log over a bucket `[p, c]`, a successful `get` emits exactly the
time-weighted mean of that bucket. -/
theorem average_get_emit (full S : List (ℚ × ℚ)) (p c v : ℚ) (st : ℚ × ℚ)
    (hst : st = (stepIntegral p c full, stepWeight p c full))
    (hmem : (p, c) ∈ S)
    (hg : AverageAggregator.get st = .ok v) :
    bucketValueOk full S (p, v) := by
  rw [hst] at hg
  have hgeq : AverageAggregator.get
      ((stepIntegral p c full, stepWeight p c full) : ℚ × ℚ) =
      if stepWeight p c full = 0 then .error "ZeroDivisionError"
      else .ok (stepIntegral p c full / stepWeight p c full) := rfl
  rw [hgeq] at hg
  by_cases hz : stepWeight p c full = 0
  · rw [if_pos hz] at hg
    exact Except.noConfusion hg
  · rw [if_neg hz] at hg
    injection hg with hv
    exact ⟨c, hmem, hv.symm⟩

/-- After `aggregator.reset()` and one `aggregate(p, c, last_value)` call,
the state of `AverageAggregator` holds the step integral and weight of the
full log over `[p, c]`, provided the carried value `lv` is the one in effect
throughout `[p, c]`. -/
theorem average_reset_state (full : List (ℚ × ℚ))
    (done remaining : List (ℚ × ℚ)) (lts lv p c : ℚ)
    (hfull : full = done ++ (lts, lv) :: remaining)
    (hdone : ∀ d ∈ done, d.1 ≤ lts)
    (hrem : ∀ d ∈ remaining, c ≤ d.1)
    (hlp : lts ≤ p) (hpc : p ≤ c) :
    AverageAggregator.step AverageAggregator.reset p c lv =
      (stepIntegral p c full, stepWeight p c full) := by
  have h1 : stepIntegral p c full = lv * (c - p) := by
    rw [hfull]
    exact stepIntegral_const p c lts lv done remaining hdone hrem hlp hpc
  have h2 : stepWeight p c full = c - p := by
    rw [hfull]
    exact stepWeight_const p c lts lv done remaining hdone hrem hlp hpc
  show ((0 : ℚ) + lv * (c - p), (0 : ℚ) + (c - p)) = _
  rw [h1, h2]
  norm_num

/-- Advancing the accumulated state by the contribution of the carried value
over `[lts, b]` yields the step integral and weight over `[p, b]`. -/
theorem average_state_advance (full : List (ℚ × ℚ))
    (done data2 : List (ℚ × ℚ)) (lts lv p b : ℚ) (st : ℚ × ℚ)
    (hfull : full = done ++ (lts, lv) :: data2)
    (hdone : ∀ d ∈ done, d.1 ≤ lts)
    (hrem : ∀ d ∈ data2, b ≤ d.1)
    (hst : st = (stepIntegral p lts full, stepWeight p lts full))
    (hplts : p ≤ lts) (hltb : lts ≤ b) :
    AverageAggregator.step st lts b lv =
      (stepIntegral p b full, stepWeight p b full) := by
  have h1 : stepIntegral p b full = stepIntegral p lts full + lv * (b - lts) := by
    rw [stepIntegral_split p lts b hplts hltb full]
    congr 1
    rw [hfull]
    exact stepIntegral_const lts b lts lv done data2 hdone hrem le_rfl hltb
  have h2 : stepWeight p b full = stepWeight p lts full + (b - lts) := by
    rw [stepWeight_split p lts b hplts hltb full]
    congr 1
    rw [hfull]
    exact stepWeight_const lts b lts lv done data2 hdone hrem le_rfl hltb
  show (st.1 + lv * (b - lts), st.2 + (b - lts)) = _
  rw [hst, h1, h2]

/-- Every entry emitted by the trailing fill loop is the time-weighted mean
of its bucket: the carried value is in effect throughout each remaining
bucket. -/
theorem fillRemainingLoop_average_values (full S : List (ℚ × ℚ))
    (done : List (ℚ × ℚ)) (lts lv : ℚ)
    (hfull : full = done ++ [(lts, lv)])
    (hdone : ∀ d ∈ done, d.1 ≤ lts) :
    ∀ (rest : List ℚ) (prev : ℚ) (result res : List (ℚ × ℚ)),
      fillRemainingLoop AverageAggregator lv prev rest result = .ok res →
      lts ≤ prev →
      List.Chain' (· < ·) (prev :: rest) →
      (∀ qp ∈ consecPairs (prev :: rest), qp ∈ S) →
      (∀ pr ∈ result, bucketValueOk full S pr) →
      ∀ pr ∈ res, bucketValueOk full S pr := by
  intro rest
  induction rest with
  | nil =>
    intro prev result res h _ _ _ hres
    simp only [fillRemainingLoop, Except.ok.injEq] at h
    subst h
    exact hres
  | cons t rest' ih =>
    intro prev result res h hlp hchain hS hres
    cases hg : AverageAggregator.get
        (AverageAggregator.step AverageAggregator.reset prev t lv) with
    | error err => simp [fillRemainingLoop, hg] at h
    | ok v =>
      simp only [fillRemainingLoop, hg] at h
      have hpt : prev < t := (List.chain'_cons.mp hchain).1
      have hstate := average_reset_state full done [] lts lv prev t hfull hdone
        (by intro d hd; cases hd) hlp hpt.le
      rw [hstate] at hg
      have hQ : bucketValueOk full S (prev, v) :=
        average_get_emit full S prev t v _ rfl
          (hS (prev, t) (by rw [consecPairs_cons₂]; exact List.mem_cons_self _ _)) hg
      refine ih t (result ++ [(prev, v)]) res h (le_trans hlp hpt.le)
        (List.chain'_cons.mp hchain).2
        (fun qp hqp => hS qp (by rw [consecPairs_cons₂]; exact List.mem_cons_of_mem _ hqp))
        ?_
      intro pr hpr
      rcases List.mem_append.mp hpr with h1 | h1
      · exact hres pr h1
      · rw [List.mem_singleton] at h1
        subst h1
        exact hQ

/-- Every entry emitted by the empty-intervals loop is the time-weighted mean
of its bucket, and on a normal exit the loop state keeps all invariants:
the remaining timestamps are a chained suffix with the current entry's
timestamp inside the next bucket. -/
theorem emptyIntervalsLoop_average_values (full S : List (ℚ × ℚ))
    (done remaining : List (ℚ × ℚ)) (lts lv ts : ℚ)
    (hfull : full = done ++ (lts, lv) :: remaining)
    (hdone : ∀ d ∈ done, d.1 ≤ lts)
    (hrem : ∀ d ∈ remaining, ts ≤ d.1) :
    ∀ (rest : List ℚ) (prev cur : ℚ) (result : List (ℚ × ℚ))
      (out : (List (ℚ × ℚ)) ⊕ (ℚ × ℚ × List ℚ × List (ℚ × ℚ))),
      emptyIntervalsLoop AverageAggregator ts lv prev cur rest result = .ok out →
      lts ≤ prev → prev ≤ ts →
      List.Chain' (· < ·) (prev :: cur :: rest) →
      (∀ qp ∈ consecPairs (prev :: cur :: rest), qp ∈ S) →
      (∀ pr ∈ result, bucketValueOk full S pr) →
      (∀ res₂, out = .inl res₂ → ∀ pr ∈ res₂, bucketValueOk full S pr) ∧
      (∀ p₂ c₂ r₂ res₂, out = .inr (p₂, c₂, r₂, res₂) →
        (∀ pr ∈ res₂, bucketValueOk full S pr) ∧
        lts ≤ p₂ ∧ p₂ ≤ ts ∧ ts < c₂ ∧
        List.Chain' (· < ·) (p₂ :: c₂ :: r₂) ∧
        (∀ qp ∈ consecPairs (p₂ :: c₂ :: r₂), qp ∈ S)) := by
  intro rest
  induction rest with
  | nil =>
    intro prev cur result out h hlp hpts hchain hS hres
    by_cases hts : ts ≥ cur
    · cases hg : AverageAggregator.get
          (AverageAggregator.step AverageAggregator.reset prev cur lv) with
      | error err => simp [emptyIntervalsLoop, if_pos hts, hg] at h
      | ok v =>
        simp only [emptyIntervalsLoop, if_pos hts, hg, Except.ok.injEq] at h
        have hpc : prev < cur := (List.chain'_cons.mp hchain).1
        have hstate := average_reset_state full done remaining lts lv prev cur hfull
          hdone (fun d hd => le_trans hts (hrem d hd)) hlp hpc.le
        rw [hstate] at hg
        have hQ : bucketValueOk full S (prev, v) :=
          average_get_emit full S prev cur v _ rfl
            (hS (prev, cur) (by rw [consecPairs_cons₂]; exact List.mem_cons_self _ _)) hg
        constructor
        · intro res₂ hout pr hpr
          rw [← h] at hout
          injection hout with hout
          rw [← hout] at hpr
          rcases List.mem_append.mp hpr with h1 | h1
          · exact hres pr h1
          · rw [List.mem_singleton] at h1
            subst h1
            exact hQ
        · intro p₂ c₂ r₂ res₂ hout
          rw [← h] at hout
          exact Sum.noConfusion hout
    · simp only [emptyIntervalsLoop, if_neg hts, Except.ok.injEq] at h
      constructor
      · intro res₂ hout
        rw [← h] at hout
        exact Sum.noConfusion hout
      · intro p₂ c₂ r₂ res₂ hout
        rw [← h] at hout
        injection hout with hout
        injection hout with h1 hout
        injection hout with h2 hout
        injection hout with h3 h4
        subst h1; subst h2; subst h3; subst h4
        exact ⟨hres, hlp, hpts, not_le.mp hts, hchain, hS⟩
  | cons cur' rest' ih =>
    intro prev cur result out h hlp hpts hchain hS hres
    by_cases hts : ts ≥ cur
    · cases hg : AverageAggregator.get
          (AverageAggregator.step AverageAggregator.reset prev cur lv) with
      | error err => simp [emptyIntervalsLoop, if_pos hts, hg] at h
      | ok v =>
        simp only [emptyIntervalsLoop, if_pos hts, hg] at h
        have hpc : prev < cur := (List.chain'_cons.mp hchain).1
        have hstate := average_reset_state full done remaining lts lv prev cur hfull
          hdone (fun d hd => le_trans hts (hrem d hd)) hlp hpc.le
        rw [hstate] at hg
        have hQ : bucketValueOk full S (prev, v) :=
          average_get_emit full S prev cur v _ rfl
            (hS (prev, cur) (by rw [consecPairs_cons₂]; exact List.mem_cons_self _ _)) hg
        refine ih cur cur' (result ++ [(prev, v)]) out h (le_trans hlp hpc.le) hts
          (List.chain'_cons.mp hchain).2
          (fun qp hqp => hS qp (by rw [consecPairs_cons₂]; exact List.mem_cons_of_mem _ hqp))
          ?_
        intro pr hpr
        rcases List.mem_append.mp hpr with h1 | h1
        · exact hres pr h1
        · rw [List.mem_singleton] at h1
          subst h1
          exact hQ
    · simp only [emptyIntervalsLoop, if_neg hts, Except.ok.injEq] at h
      constructor
      · intro res₂ hout
        rw [← h] at hout
        exact Sum.noConfusion hout
      · intro p₂ c₂ r₂ res₂ hout
        rw [← h] at hout
        injection hout with hout
        injection hout with h1 hout
        injection hout with h2 hout
        injection hout with h3 h4
        subst h1; subst h2; subst h3; subst h4
        exact ⟨hres, hlp, hpts, not_le.mp hts, hchain, hS⟩

/-- Every entry emitted by a run of `mainLoop` with the `AverageAggregator`
is the time-weighted mean of the full log over its bucket, provided the
aggregator state holds the step integral/weight of the interval so far, the
log is time-ordered, and the pending timestamps form an increasing chain. -/
theorem mainLoop_average_values (full S : List (ℚ × ℚ)) :
    ∀ (data : List (ℚ × ℚ)) (done : List (ℚ × ℚ)) (prev : Option ℚ) (cur : ℚ)
      (rest : List ℚ) (lts lv : ℚ) (st : ℚ × ℚ) (result res : List (ℚ × ℚ)),
      mainLoop AverageAggregator data prev cur rest lts lv st result = .ok res →
      full = done ++ (lts, lv) :: data →
      List.Pairwise (fun d d' : ℚ × ℚ => d.1 ≤ d'.1) ((lts, lv) :: data) →
      (∀ d ∈ done, d.1 ≤ lts) →
      (∀ p, prev = some p →
        st = (stepIntegral p lts full, stepWeight p lts full) ∧ p ≤ lts) →
      lts < cur →
      List.Chain' (· < ·) (chainOf prev cur rest) →
      (∀ qp ∈ consecPairs (chainOf prev cur rest), qp ∈ S) →
      (∀ pr ∈ result, bucketValueOk full S pr) →
      ∀ pr ∈ res, bucketValueOk full S pr := by
  intro data
  induction data with
  | nil =>
    intro done prev cur rest lts lv st result res h hfull hsorted hdone hstinv hlt
      hchain hS hres
    cases prev with
    | none =>
      simp only [mainLoop] at h
      exact fillRemainingLoop_average_values full S done lts lv hfull hdone rest cur
        result res h hlt.le hchain hS hres
    | some p =>
      cases hg : AverageAggregator.get (AverageAggregator.step st lts cur lv) with
      | error err => simp [mainLoop, hg] at h
      | ok v =>
        simp only [mainLoop, hg] at h
        obtain ⟨hstq, hple⟩ := hstinv p rfl
        have hadv := average_state_advance full done [] lts lv p cur st hfull hdone
          (by intro d hd; cases hd) hstq hple hlt.le
        rw [hadv] at hg
        have hQ := average_get_emit full S p cur v _ rfl
          (hS (p, cur) (by
            rw [show chainOf (some p) cur rest = p :: cur :: rest from rfl,
              consecPairs_cons₂]
            exact List.mem_cons_self _ _)) hg
        refine fillRemainingLoop_average_values full S done lts lv hfull hdone rest cur
          (result ++ [(p, v)]) res h hlt.le (List.chain'_cons.mp hchain).2
          (fun qp hqp => hS qp (by
            rw [show chainOf (some p) cur rest = p :: cur :: rest from rfl,
              consecPairs_cons₂]
            exact List.mem_cons_of_mem _ hqp)) ?_
        intro pr hpr
        rcases List.mem_append.mp hpr with h1 | h1
        · exact hres pr h1
        · rw [List.mem_singleton] at h1
          subst h1
          exact hQ
  | cons hd dataRest ih =>
    obtain ⟨ts, val⟩ := hd
    intro done prev cur rest lts lv st result res h hfull hsorted hdone hstinv hlt
      hchain hS hres
    have hltts : lts ≤ ts := by
      have := (List.pairwise_cons.mp hsorted).1 (ts, val) (List.mem_cons_self _ _)
      simpa using this
    have hsorted' : List.Pairwise (fun d d' : ℚ × ℚ => d.1 ≤ d'.1)
        ((ts, val) :: dataRest) := (List.pairwise_cons.mp hsorted).2
    have hrem_ts : ∀ d ∈ (ts, val) :: dataRest, ts ≤ d.1 := by
      intro d hd
      rcases List.mem_cons.mp hd with h1 | h1
      · subst h1; exact le_rfl
      · have := (List.pairwise_cons.mp hsorted').1 d h1
        simpa using this
    have hfull' : full = (done ++ [(lts, lv)]) ++ (ts, val) :: dataRest := by
      rw [hfull]; exact List.append_cons _ _ _
    have hdone' : ∀ d ∈ done ++ [(lts, lv)], d.1 ≤ ts := by
      intro d hd
      rcases List.mem_append.mp hd with h1 | h1
      · exact le_trans (hdone d h1) hltts
      · rw [List.mem_singleton] at h1
        subst h1
        exact hltts
    by_cases hts : ts ≥ cur
    · cases prev with
      | some p =>
        cases hg : AverageAggregator.get (AverageAggregator.step st lts cur lv) with
        | error err => simp [mainLoop, if_pos hts, hg] at h
        | ok v =>
          obtain ⟨hstq, hple⟩ := hstinv p rfl
          have hremcur : ∀ d ∈ (ts, val) :: dataRest, cur ≤ d.1 :=
            fun d hd => le_trans hts (hrem_ts d hd)
          have hadv := average_state_advance full done ((ts, val) :: dataRest) lts lv
            p cur st hfull hdone hremcur hstq hple hlt.le
          have hQ : bucketValueOk full S (p, v) := by
            have hg' := hg
            rw [hadv] at hg'
            exact average_get_emit full S p cur v _ rfl
              (hS (p, cur) (by
                rw [show chainOf (some p) cur rest = p :: cur :: rest from rfl,
                  consecPairs_cons₂]
                exact List.mem_cons_self _ _)) hg'
          cases rest with
          | nil =>
            simp only [mainLoop, if_pos hts, hg, Except.ok.injEq] at h
            subst h
            intro pr hpr
            rcases List.mem_append.mp hpr with h1 | h1
            · exact hres pr h1
            · rw [List.mem_singleton] at h1
              subst h1
              exact hQ
          | cons cur' rest' =>
            have hres' : ∀ pr ∈ result ++ [(p, v)], bucketValueOk full S pr := by
              intro pr hpr
              rcases List.mem_append.mp hpr with h1 | h1
              · exact hres pr h1
              · rw [List.mem_singleton] at h1
                subst h1
                exact hQ
            cases hE : emptyIntervalsLoop AverageAggregator ts lv cur cur' rest'
                (result ++ [(p, v)]) with
            | error err => simp [mainLoop, if_pos hts, hg, hE] at h
            | ok out =>
              have hEm := emptyIntervalsLoop_average_values full S done
                ((ts, val) :: dataRest) lts lv ts hfull hdone hrem_ts rest' cur cur'
                (result ++ [(p, v)]) out hE hlt.le hts
                (List.chain'_cons.mp hchain).2
                (fun qp hqp => hS qp (by
                  rw [show chainOf (some p) cur (cur' :: rest') =
                      p :: cur :: cur' :: rest' from rfl, consecPairs_cons₂]
                  exact List.mem_cons_of_mem _ hqp)) hres'
              cases out with
              | inl res₂ =>
                simp only [mainLoop, if_pos hts, hg, hE, Except.ok.injEq] at h
                subst h
                exact hEm.1 _ rfl
              | inr q =>
                obtain ⟨p₂, c₂, r₂, res₂⟩ := q
                simp only [mainLoop, if_pos hts, hg, hE] at h
                obtain ⟨hQ₂, hlp₂, hpts₂, htsc₂, hchain₂, hS₂⟩ := hEm.2 p₂ c₂ r₂ res₂ rfl
                have hst₂ := average_reset_state full done ((ts, val) :: dataRest)
                  lts lv p₂ ts hfull hdone hrem_ts hlp₂ hpts₂
                refine ih (done ++ [(lts, lv)]) (some p₂) c₂ r₂ ts val _ res₂ res h
                  hfull' hsorted' hdone' ?_ htsc₂ hchain₂ hS₂ hQ₂
                intro q2 hq2
                injection hq2 with hq2
                subst hq2
                constructor
                · rw [max_eq_right hlp₂]
                  exact hst₂
                · exact hpts₂
      | none =>
        cases rest with
        | nil =>
          simp only [mainLoop, if_pos hts, Except.ok.injEq] at h
          subst h
          exact hres
        | cons cur' rest' =>
          cases hE : emptyIntervalsLoop AverageAggregator ts lv cur cur' rest'
              result with
          | error err => simp [mainLoop, if_pos hts, hE] at h
          | ok out =>
            have hEm := emptyIntervalsLoop_average_values full S done
              ((ts, val) :: dataRest) lts lv ts hfull hdone hrem_ts rest' cur cur'
              result out hE hlt.le hts hchain hS hres
            cases out with
            | inl res₂ =>
              simp only [mainLoop, if_pos hts, hE, Except.ok.injEq] at h
              subst h
              exact hEm.1 _ rfl
            | inr q =>
              obtain ⟨p₂, c₂, r₂, res₂⟩ := q
              simp only [mainLoop, if_pos hts, hE] at h
              obtain ⟨hQ₂, hlp₂, hpts₂, htsc₂, hchain₂, hS₂⟩ := hEm.2 p₂ c₂ r₂ res₂ rfl
              have hst₂ := average_reset_state full done ((ts, val) :: dataRest)
                lts lv p₂ ts hfull hdone hrem_ts hlp₂ hpts₂
              refine ih (done ++ [(lts, lv)]) (some p₂) c₂ r₂ ts val _ res₂ res h
                hfull' hsorted' hdone' ?_ htsc₂ hchain₂ hS₂ hQ₂
              intro q2 hq2
              injection hq2 with hq2
              subst hq2
              constructor
              · rw [max_eq_right hlp₂]
                exact hst₂
              · exact hpts₂
    · simp only [mainLoop, if_neg hts] at h
      refine ih (done ++ [(lts, lv)]) prev cur rest ts val _ result res h hfull'
        hsorted' hdone' ?_ (not_le.mp hts) hchain hS hres
      intro p hp
      subst hp
      obtain ⟨hstq, hple⟩ := hstinv p rfl
      constructor
      · show AverageAggregator.step st (max lts p) ts lv = _
        rw [max_eq_left hple]
        exact average_state_advance full done ((ts, val) :: dataRest) lts lv p ts st
          hfull hdone hrem_ts hstq hple hltts
      · exact le_trans hple hltts

/-- Consecutive aggregation timestamps delimit buckets: each timestamp is
followed by `min (itself + interval) end_time`. -/
theorem aggregation_timestamps_chain (s e Δ : ℚ) (hse : s < e) (hΔ : 0 < Δ) :
    List.Chain' (fun x y => y = min (x + Δ) e) (aggregation_timestamps s e Δ) := by
  obtain ⟨m, hm⟩ : ∃ m, numAggregationIntervals s e Δ = m + 1 := by
    have := numAggregationIntervals_pos s e Δ hse hΔ
    exact ⟨numAggregationIntervals s e Δ - 1, by omega⟩
  rw [aggregation_timestamps_eq s e Δ hse hΔ]
  rw [List.chain'_append]
  refine ⟨?_, by simp, ?_⟩
  · rw [List.chain'_map, hm]
    refine (List.chain'_range_succ _ m).mpr ?_
    intro i hi
    have hlt : s + ((i : ℚ) + 1) * Δ < e := by
      have h := timestamp_lt_end s e Δ hse hΔ (i + 1) (by omega)
      push_cast at h
      linarith
    have hmin : min (s + (i : ℚ) * Δ + Δ) e = s + (i : ℚ) * Δ + Δ :=
      min_eq_left (by linarith)
    rw [hmin]
    push_cast
    ring
  · intro x hx y hy
    have hlast : (List.map (fun i : ℕ => s + (i : ℚ) * Δ)
        (List.range (numAggregationIntervals s e Δ))).getLast? =
        some (s + (m : ℚ) * Δ) := by
      rw [hm, List.range_succ, List.map_append, List.map_singleton,
        List.getLast?_concat]
    rw [hlast] at hx
    simp only [Option.mem_def, Option.some.injEq] at hx
    simp only [List.head?_cons, Option.mem_def, Option.some.injEq] at hy
    subst hx
    subst hy
    have hge : e ≤ s + (m : ℚ) * Δ + Δ := by
      have h := end_le_last_timestamp s e Δ hse hΔ
      rw [hm] at h
      push_cast at h
      linarith
    rw [min_eq_right hge]

end Shc.Log


/-- **C5.** For AVERAGE aggregation over a time-ordered log, every emitted
bucket entry `(t, v)` has `v` equal to the time-weighted mean of the values
in effect during the bucket `[t, min (t + Δ) end)`, each value weighted by
the duration it was in effect within the bucket, with the last value carried
forward across samples. -/
theorem Shc.Log.aggregate_average_time_weighted
    (ty : LogValueType) (s e Δ t₀ v₀ : ℚ) (dtl res : List (ℚ × ℚ))
    (hsorted : List.Pairwise (fun d d' : ℚ × ℚ => d.1 ≤ d'.1) ((t₀, v₀) :: dtl))
    (hse : s < e) (hΔ : 0 < Δ)
    (hok : aggregate ((t₀, v₀) :: dtl) ty s e .AVERAGE Δ = .ok res) :
    ∀ pr ∈ res,
      pr.2 = timeWeightedMean ((t₀, v₀) :: dtl) pr.1 (min (pr.1 + Δ) e) := by
  have hats := aggregation_timestamps_eq s e Δ hse hΔ
  have hPair := aggregation_timestamps_sorted s e Δ hse hΔ
  have hchainAts := aggregation_timestamps_chain s e Δ hse hΔ
  have hge : ∀ d ∈ (t₀, v₀) :: dtl, t₀ ≤ d.1 := by
    intro d hd
    rcases List.mem_cons.mp hd with h1 | h1
    · subst h1; exact le_rfl
    · have := (List.pairwise_cons.mp hsorted).1 d h1
      simpa using this
  unfold aggregate at hok
  rw [if_neg hΔ.ne'] at hok
  cases hAts : aggregation_timestamps s e Δ with
  | nil => rw [hAts] at hats; exact absurd hats (by simp)
  | cons at0 atRest =>
    rw [hAts] at hok
    have hok1 : (if (AggregationMethod.AVERAGE = AggregationMethod.MINIMUM ∨
          AggregationMethod.AVERAGE = AggregationMethod.MAXIMUM ∨
          AggregationMethod.AVERAGE = AggregationMethod.AVERAGE) ∧
          ty.isNumeric = false
        then (Except.error "TypeError" : Except String (List (ℚ × ℚ)))
        else match skipLoop t₀ none at0 atRest with
          | none => Except.ok []
          | some (prev, cur, rest) =>
              mainLoop AverageAggregator dtl prev cur rest t₀ v₀
                AverageAggregator.reset []) = Except.ok res := hok
    by_cases hN : ty.isNumeric = false
    · rw [if_pos ⟨Or.inr (Or.inr rfl), hN⟩] at hok1
      cases hok1
    · rw [if_neg (show ¬((AggregationMethod.AVERAGE = AggregationMethod.MINIMUM ∨
          AggregationMethod.AVERAGE = AggregationMethod.MAXIMUM ∨
          AggregationMethod.AVERAGE = AggregationMethod.AVERAGE) ∧
          ty.isNumeric = false) from fun hcontra => hN hcontra.2)] at hok1
      have hsplitAB := List.takeWhile_append_dropWhile
        (fun x : ℚ => decide (x ≤ t₀)) (at0 :: atRest)
      have hAle : ∀ x ∈ (at0 :: atRest).takeWhile (fun x : ℚ => decide (x ≤ t₀)),
          x ≤ t₀ := by
        intro x hx
        have := List.mem_takeWhile_imp hx
        simpa using this
      by_cases hBnil : (at0 :: atRest).dropWhile (fun x : ℚ => decide (x ≤ t₀)) = []
      · have hall : ∀ x ∈ at0 :: atRest, x ≤ t₀ := by
          rw [List.dropWhile_eq_nil_iff] at hBnil
          intro x hx
          have := hBnil x hx
          simpa using this
        have hskip := skipLoop_all_le t₀ atRest none at0 hall
        rw [hskip] at hok1
        have hnil : (Except.ok ([] : List (ℚ × ℚ)) :
            Except String (List (ℚ × ℚ))) = Except.ok res := hok1
        injection hnil with hnil
        intro pr hpr
        rw [← hnil] at hpr
        cases hpr
      · obtain ⟨c, r, hB⟩ := List.exists_cons_of_ne_nil hBnil
        have hc : t₀ < c := by
          have hpc := dropWhile_cons_head_false (fun x : ℚ => decide (x ≤ t₀))
            (at0 :: atRest) c r hB
          exact not_le.mp (by simpa using hpc)
        have hACR : at0 :: atRest =
            ((at0 :: atRest).takeWhile (fun x : ℚ => decide (x ≤ t₀))) ++ c :: r := by
          rw [← hB, hsplitAB]
        have hskip := skipLoop_split t₀
          ((at0 :: atRest).takeWhile (fun x : ℚ => decide (x ≤ t₀)))
          none at0 atRest c r hACR hAle hc
        have hsortedACR : (((at0 :: atRest).takeWhile (fun x : ℚ => decide (x ≤ t₀))) ++
            c :: r).Pairwise (· < ·) := by
          rw [← hACR, ← hAts]; exact hPair
        have hPcr : (c :: r).Pairwise (· < ·) := (List.pairwise_append.mp hsortedACR).2.1
        have hchainCR : List.Chain' (· < ·) (c :: r) :=
          List.chain'_iff_pairwise.mpr hPcr
        cases hA : (at0 :: atRest).takeWhile (fun x : ℚ => decide (x ≤ t₀)) with
        | nil =>
          rw [hA] at hACR hskip
          simp only [List.getLast?_nil] at hskip
          rw [hskip] at hok1
          have hok2 : mainLoop AverageAggregator dtl none c r t₀ v₀
              AverageAggregator.reset [] = .ok res := hok1
          have hmain := mainLoop_average_values ((t₀, v₀) :: dtl)
            (consecPairs (aggregation_timestamps s e Δ)) dtl [] none c r t₀ v₀
            AverageAggregator.reset [] res hok2 (by simp) hsorted
            (by intro d hd; cases hd)
            (by intro p hp; exact Option.noConfusion hp)
            hc hchainCR
            (by
              intro qp hqp
              rw [show chainOf none c r = c :: r from rfl] at hqp
              rw [hAts]
              have hatseq : at0 :: atRest = c :: r := by simpa using hACR
              rw [hatseq]
              exact hqp)
            (by intro pr hpr; cases hpr)
          intro pr hpr
          obtain ⟨qe, hqe, hval⟩ := hmain pr hpr
          have hR : qe = min (pr.1 + Δ) e :=
            chain_consecPairs (aggregation_timestamps s e Δ) hchainAts (pr.1, qe) hqe
          rw [hval, hR]
        | cons a A' =>
          rw [hA] at hACR hskip hsortedACR
          have hAne : a :: A' ≠ [] := List.cons_ne_nil a A'
          have hlastEq : (a :: A').getLast? = some ((a :: A').getLast hAne) :=
            List.getLast?_eq_getLast _ hAne
          rw [hlastEq] at hskip
          rw [hskip] at hok1
          have hok2 : mainLoop AverageAggregator dtl (some ((a :: A').getLast hAne))
              c r t₀ v₀ AverageAggregator.reset [] = .ok res := hok1
          have hla_le : (a :: A').getLast hAne ≤ t₀ := by
            have hmem := List.getLast_mem hAne
            exact hAle _ (by rw [hA]; exact hmem)
          have hla_lt_c : (a :: A').getLast hAne < c := by
            have hmem := List.getLast_mem hAne
            exact (List.pairwise_append.mp hsortedACR).2.2 _ hmem c
              (List.mem_cons_self _ _)
          have hmain := mainLoop_average_values ((t₀, v₀) :: dtl)
            (consecPairs (aggregation_timestamps s e Δ)) dtl []
            (some ((a :: A').getLast hAne)) c r t₀ v₀
            AverageAggregator.reset [] res hok2 (by simp) hsorted
            (by intro d hd; cases hd)
            (by
              intro p hp
              injection hp with hp
              subst hp
              constructor
              · rw [stepIntegral_eq_zero_of_ge _ t₀ ((t₀, v₀) :: dtl) hge,
                  stepWeight_eq_zero_of_ge _ t₀ ((t₀, v₀) :: dtl) hge]
                rfl
              · exact hla_le)
            hc
            (List.chain'_cons.mpr ⟨hla_lt_c, hchainCR⟩)
            (by
              intro qp hqp
              rw [show chainOf (some ((a :: A').getLast hAne)) c r =
                  (a :: A').getLast hAne :: c :: r from rfl] at hqp
              rw [hAts, hACR, ← List.dropLast_append_getLast hAne, List.append_assoc,
                List.singleton_append]
              exact consecPairs_append_subset _ _ qp hqp)
            (by intro pr hpr; cases hpr)
          intro pr hpr
          obtain ⟨qe, hqe, hval⟩ := hmain pr hpr
          have hR : qe = min (pr.1 + Δ) e :=
            chain_consecPairs (aggregation_timestamps s e Δ) hchainAts (pr.1, qe) hqe
          rw [hval, hR]

/-- Witness for C5: spec scenario S3 — entries `(0,0), (30,10), (60,20)`
aggregated with AVERAGE over `[0, 120)` in 60-second buckets yield the
time-weighted means `5` over `[0, 60)` and `20` over `[60, 120)`. -/
theorem Shc.Log.aggregate_average_time_weighted_witness :
    ((5 : ℚ) = Shc.Log.timeWeightedMean [((0 : ℚ), (0 : ℚ)), (30, 10), (60, 20)]
        0 (min ((0 : ℚ) + 60) 120)) ∧
    ((20 : ℚ) = Shc.Log.timeWeightedMean [((0 : ℚ), (0 : ℚ)), (30, 10), (60, 20)]
        60 (min ((60 : ℚ) + 60) 120)) := by
  have h2 : (⌈((120 : ℚ) - 0) / 60⌉) = 2 := by norm_num
  have hats : aggregation_timestamps 0 120 60 = [0, 60, 120] := by
    simp only [aggregation_timestamps, h2]
    norm_num [show List.range (Int.toNat 2) = [0, 1] from rfl,
      List.getLast?_cons_cons, List.getLast?_singleton]
  have hok : aggregate [(0, 0), (30, 10), (60, 20)] LogValueType.tInt 0 120
      AggregationMethod.AVERAGE 60 = .ok [(0, 5), (60, 20)] := by
    unfold aggregate
    rw [hats]
    norm_num [LogValueType.isNumeric, skipLoop, mainLoop, emptyIntervalsLoop,
      fillRemainingLoop, AverageAggregator]
  have h := Shc.Log.aggregate_average_time_weighted LogValueType.tInt 0 120 60 0 0
    [(30, 10), (60, 20)] [(0, 5), (60, 20)]
    (by norm_num) (by norm_num) (by norm_num) hok
  exact ⟨h (0, 5) (by norm_num), h (60, 20) (by norm_num)⟩

namespace Shc.LogConc

/-! ### Flush coalescing of `WritableDataLogVariable._write` (generic.py 78-102)

asyncio coroutines run cooperatively: code between two `await`s is atomic.
`_write` appends to `_pending_values` and then either becomes the flusher
(when `_flushing_finished is None`: it creates the event, acquires the mutex,
atomically swaps out the pending queue, clears `_flushing_finished`, awaits
the backend write plus subscriber deliveries, sets the event and releases the
mutex) or awaits the current event.  The model below represents each `_write`
task by a program counter and executes every atomic section as one
deterministic step; `backendComplete` is the completion of the awaited
`asyncio.gather` (backend write and all live-view deliveries). -/

/-- Program counter of one `_write` task. -/
inductive WriterPC where
  | notStarted
  | flushing (ev : ℕ) (batch : List ℚ)
  | waitingMutex (ev : ℕ)
  | waitingEvent (ev : ℕ)
  | returned
deriving DecidableEq

/-- Point update of the task map. -/
def setTask (tasks : ℕ → WriterPC) (i : ℕ) (pc : WriterPC) : ℕ → WriterPC :=
  fun j => if j = i then pc else tasks j

/-- Shared state of one `WritableDataLogVariable` plus its `_write` tasks:
the pending queue, the `_flushing_finished` event (by id), the fresh-event
counter, the `asyncio.Lock` with its FIFO wait queue, the task map and the
list of completed flush batches (in completion order). -/
structure SysState where
  pending : List ℚ
  flushing_finished : Option ℕ
  nextEventId : ℕ
  mutexLocked : Bool
  mutexWaiters : List ℕ
  tasks : ℕ → WriterPC
  flushes : List (List ℚ)

/-- Task `i` runs `_write(v)` up to its first suspension point (lines 79-90
and 100-102): append to the pending queue; if no flush event exists, create
one and try the mutex — entering the critical section at once when it is
free (the atomic swap of lines 86-91), queueing on it otherwise; if a flush
event exists, wait on it. -/
def writeEntry (i : ℕ) (v : ℚ) (st : SysState) : SysState :=
  match st.flushing_finished with
  | none =>
    if st.mutexLocked then
      { st with pending := st.pending ++ [v],
                flushing_finished := some st.nextEventId,
                nextEventId := st.nextEventId + 1,
                mutexWaiters := st.mutexWaiters ++ [i],
                tasks := setTask st.tasks i (.waitingMutex st.nextEventId) }
    else
      { st with pending := [],
                flushing_finished := none,
                nextEventId := st.nextEventId + 1,
                mutexLocked := true,
                tasks := setTask st.tasks i (.flushing st.nextEventId
                  (st.pending ++ [v])) }
  | some ev =>
    { st with pending := st.pending ++ [v],
              tasks := setTask st.tasks i (.waitingEvent ev) }

/-- `event.set()`: every task waiting on event `ev` resumes and returns. -/
def wakeEventWaiters (ev : ℕ) (tasks : ℕ → WriterPC) : ℕ → WriterPC :=
  fun j =>
    match tasks j with
    | .waitingEvent e => if e = ev then .returned else .waitingEvent e
    | pc => pc

/-- The `asyncio.gather` awaited by the flushing task `i` completes (backend
write plus all subscriber deliveries, lines 92-97): record the flushed batch,
set the finish event (line 98), return, and release the mutex — the first
queued waiter, if any, resumes inside the critical section (lines 86-91):
it atomically swaps out the pending queue, reads and clears
`_flushing_finished`, and starts its own backend write. -/
def backendComplete (i : ℕ) (st : SysState) : SysState :=
  match st.tasks i with
  | .flushing ev batch =>
    let tasks₁ := setTask (wakeEventWaiters ev st.tasks) i .returned
    let st₁ := { st with flushes := st.flushes ++ [batch], tasks := tasks₁ }
    match st.mutexWaiters with
    | [] => { st₁ with mutexLocked := false }
    | w :: ws =>
      match tasks₁ w with
      | .waitingMutex evw =>
        { st₁ with pending := [],
                   flushing_finished := none,
                   mutexWaiters := ws,
                   tasks := setTask tasks₁ w
                     (.flushing (st.flushing_finished.getD evw) st.pending) }
      | _ => { st₁ with mutexLocked := false, mutexWaiters := ws }
  | _ => st

/-- Consecutive `_write` arrivals by tasks `k, k+1, …` (all happening while
the first flush is in flight). -/
def runArrivals : ℕ → List ℚ → SysState → SysState
  | _, [], st => st
  | k, v :: rest, st => runArrivals (k + 1) rest (writeEntry k v st)

/-- Idle data-log variable: empty queue, no event, free mutex, no tasks. -/
def initState : SysState :=
  { pending := [], flushing_finished := none, nextEventId := 0,
    mutexLocked := false, mutexWaiters := [], tasks := fun _ => .notStarted,
    flushes := [] }

theorem setTask_self (tasks : ℕ → WriterPC) (i : ℕ) (pc : WriterPC) :
    setTask tasks i pc i = pc := by
  simp [setTask]

theorem setTask_other (tasks : ℕ → WriterPC) (i j : ℕ) (pc : WriterPC)
    (h : j ≠ i) : setTask tasks i pc j = tasks j := by
  simp [setTask, h]

/-- While a flush event exists, each arriving `_write` only appends its value
to the pending queue and becomes an event waiter; everything else is
untouched. -/
theorem runArrivals_spec :
    ∀ (vrest : List ℚ) (k : ℕ) (st : SysState) (e : ℕ),
      st.flushing_finished = some e →
      (runArrivals k vrest st).pending = st.pending ++ vrest ∧
      (runArrivals k vrest st).flushing_finished = some e ∧
      (runArrivals k vrest st).nextEventId = st.nextEventId ∧
      (runArrivals k vrest st).mutexLocked = st.mutexLocked ∧
      (runArrivals k vrest st).mutexWaiters = st.mutexWaiters ∧
      (runArrivals k vrest st).flushes = st.flushes ∧
      (∀ j, j < k ∨ k + vrest.length ≤ j →
        (runArrivals k vrest st).tasks j = st.tasks j) ∧
      (∀ j, k ≤ j → j < k + vrest.length →
        (runArrivals k vrest st).tasks j = .waitingEvent e) := by
  intro vrest
  induction vrest with
  | nil =>
    intro k st e hff
    refine ⟨by simp [runArrivals], by simp [runArrivals, hff], rfl, rfl, rfl, rfl,
      fun j _ => rfl, fun j hj1 hj2 => absurd hj2 (by simp; omega)⟩
  | cons v rest ih =>
    intro k st e hff
    have hstep : runArrivals k (v :: rest) st =
        runArrivals (k + 1) rest (writeEntry k v st) := rfl
    have hw_p : (writeEntry k v st).pending = st.pending ++ [v] := by
      simp only [writeEntry, hff]
    have hw_ff : (writeEntry k v st).flushing_finished = some e := by
      simp only [writeEntry, hff]
    have hw_n : (writeEntry k v st).nextEventId = st.nextEventId := by
      simp only [writeEntry, hff]
    have hw_m : (writeEntry k v st).mutexLocked = st.mutexLocked := by
      simp only [writeEntry, hff]
    have hw_mw : (writeEntry k v st).mutexWaiters = st.mutexWaiters := by
      simp only [writeEntry, hff]
    have hw_fl : (writeEntry k v st).flushes = st.flushes := by
      simp only [writeEntry, hff]
    have hw_t : (writeEntry k v st).tasks = setTask st.tasks k (.waitingEvent e) := by
      simp only [writeEntry, hff]
    obtain ⟨hp, hf, hn, hm, hmw, hfl, hout, hin⟩ :=
      ih (k + 1) (writeEntry k v st) e hw_ff
    refine ⟨?_, by rw [hstep]; exact hf, by rw [hstep, hn, hw_n],
      by rw [hstep, hm, hw_m], by rw [hstep, hmw, hw_mw],
      by rw [hstep, hfl, hw_fl], ?_, ?_⟩
    · rw [hstep, hp, hw_p]
      simp
    · intro j hj
      have hj1 : j < k + 1 ∨ k + 1 + rest.length ≤ j := by
        rcases hj with hj | hj
        · left; omega
        · right; simp at hj ⊢; omega
      have hjk : j ≠ k := by
        rcases hj with hj | hj
        · omega
        · simp at hj; omega
      rw [hstep, hout j hj1, hw_t]
      exact setTask_other _ _ _ _ hjk
    · intro j hj1 hj2
      by_cases hjk : j = k
      · subst hjk
        rw [hstep, hout j (Or.inl (by omega)), hw_t]
        exact setTask_self _ _ _
      · exact hin j (by omega) (by simp at hj2 ⊢; omega)

end Shc.LogConc

/-- **C3.** Flush coalescing: when a `WritableDataLogVariable` receives `N ≥ 1`
further `_write` calls (tasks `1..N`, values `vs` in arrival order) while the
flush of task 0's value `v0` is in flight, then (i) no flush completes before
the first backend write finishes, (ii) after it finishes exactly the batch
`[v0]` has been flushed and, among tasks `0..N`, precisely task 0 has
returned, (iii) after the second backend write finishes exactly the two
batches `[v0]` and `vs` have been flushed — all `N` coalesced values in
arrival order — and all tasks have returned, with the variable quiescent
(empty queue, no event, mutex free). -/
theorem Shc.LogConc.write_flush_coalescing (v0 : ℚ) (vs : List ℚ) (hne : vs ≠ []) :
    (runArrivals 1 vs (writeEntry 0 v0 initState)).flushes = [] ∧
    (backendComplete 0 (runArrivals 1 vs (writeEntry 0 v0 initState))).flushes
      = [[v0]] ∧
    (∀ i, i ≤ vs.length →
      ((backendComplete 0 (runArrivals 1 vs (writeEntry 0 v0 initState))).tasks i
        = WriterPC.returned ↔ i = 0)) ∧
    (backendComplete 1 (backendComplete 0
      (runArrivals 1 vs (writeEntry 0 v0 initState)))).flushes = [[v0], vs] ∧
    (∀ i, i ≤ vs.length →
      (backendComplete 1 (backendComplete 0
        (runArrivals 1 vs (writeEntry 0 v0 initState)))).tasks i
        = WriterPC.returned) ∧
    (backendComplete 1 (backendComplete 0
      (runArrivals 1 vs (writeEntry 0 v0 initState)))).pending = [] ∧
    (backendComplete 1 (backendComplete 0
      (runArrivals 1 vs (writeEntry 0 v0 initState)))).flushing_finished = none ∧
    (backendComplete 1 (backendComplete 0
      (runArrivals 1 vs (writeEntry 0 v0 initState)))).mutexLocked = false := by
  obtain ⟨v1, vrest, rfl⟩ := List.exists_cons_of_ne_nil hne
  have hstep1 : runArrivals 1 (v1 :: vrest) (writeEntry 0 v0 initState) =
      runArrivals 2 vrest (writeEntry 1 v1 (writeEntry 0 v0 initState)) := rfl
  have hs2a : writeEntry 1 v1 (writeEntry 0 v0 initState) =
      { pending := [v1], flushing_finished := some 1, nextEventId := 2,
        mutexLocked := true, mutexWaiters := [1],
        tasks := setTask (setTask (fun _ => WriterPC.notStarted) 0
          (WriterPC.flushing 0 [v0])) 1 (WriterPC.waitingMutex 1),
        flushes := [] } := by
    simp [writeEntry, initState]
  rw [hstep1, hs2a]
  obtain ⟨hp2, hf2, _hn2, hm2, hmw2, hfl2, hout2, hin2⟩ := runArrivals_spec vrest 2
    { pending := [v1], flushing_finished := some 1, nextEventId := 2,
      mutexLocked := true, mutexWaiters := [1],
      tasks := setTask (setTask (fun _ => WriterPC.notStarted) 0
        (WriterPC.flushing 0 [v0])) 1 (WriterPC.waitingMutex 1),
      flushes := [] } 1 rfl
  have hp2' : (runArrivals 2 vrest
      { pending := [v1], flushing_finished := some 1, nextEventId := 2,
        mutexLocked := true, mutexWaiters := [1],
        tasks := setTask (setTask (fun _ => WriterPC.notStarted) 0
          (WriterPC.flushing 0 [v0])) 1 (WriterPC.waitingMutex 1),
        flushes := [] }).pending = v1 :: vrest := by
    simpa using hp2
  have ht2_0 : (runArrivals 2 vrest
      { pending := [v1], flushing_finished := some 1, nextEventId := 2,
        mutexLocked := true, mutexWaiters := [1],
        tasks := setTask (setTask (fun _ => WriterPC.notStarted) 0
          (WriterPC.flushing 0 [v0])) 1 (WriterPC.waitingMutex 1),
        flushes := [] }).tasks 0 = WriterPC.flushing 0 [v0] := by
    rw [hout2 0 (Or.inl (by omega))]
    simp [setTask]
  have ht2_1 : (runArrivals 2 vrest
      { pending := [v1], flushing_finished := some 1, nextEventId := 2,
        mutexLocked := true, mutexWaiters := [1],
        tasks := setTask (setTask (fun _ => WriterPC.notStarted) 0
          (WriterPC.flushing 0 [v0])) 1 (WriterPC.waitingMutex 1),
        flushes := [] }).tasks 1 = WriterPC.waitingMutex 1 := by
    rw [hout2 1 (Or.inl (by omega))]
    simp [setTask]
  set s2e := runArrivals 2 vrest
      { pending := [v1], flushing_finished := some 1, nextEventId := 2,
        mutexLocked := true, mutexWaiters := [1],
        tasks := setTask (setTask (fun _ => WriterPC.notStarted) 0
          (WriterPC.flushing 0 [v0])) 1 (WriterPC.waitingMutex 1),
        flushes := [] } with hs2e
  have hmw2' : s2e.mutexWaiters = [1] := by simpa using hmw2
  have hfl2' : s2e.flushes = [] := by simpa using hfl2
  have hw1 : setTask (wakeEventWaiters 0 s2e.tasks) 0 WriterPC.returned 1 =
      WriterPC.waitingMutex 1 := by
    rw [setTask_other _ _ _ _ (by omega)]
    simp [wakeEventWaiters, ht2_1]
  have h3_fl : (backendComplete 0 s2e).flushes = [[v0]] := by
    simp [backendComplete, ht2_0, hmw2', hw1, hf2, hfl2']
  have h3_p : (backendComplete 0 s2e).pending = [] := by
    simp [backendComplete, ht2_0, hmw2', hw1, hf2]
  have h3_ff : (backendComplete 0 s2e).flushing_finished = none := by
    simp [backendComplete, ht2_0, hmw2', hw1, hf2]
  have h3_mw : (backendComplete 0 s2e).mutexWaiters = [] := by
    simp [backendComplete, ht2_0, hmw2', hw1, hf2]
  have h3_t : (backendComplete 0 s2e).tasks =
      setTask (setTask (wakeEventWaiters 0 s2e.tasks) 0 WriterPC.returned) 1
        (WriterPC.flushing 1 s2e.pending) := by
    simp only [backendComplete, ht2_0, hmw2', hw1, hf2, Option.getD_some]
  set s3e := backendComplete 0 s2e with hs3e
  have h3t0 : s3e.tasks 0 = WriterPC.returned := by
    rw [h3_t, setTask_other _ _ _ _ (by omega), setTask_self]
  have h3t1 : s3e.tasks 1 = WriterPC.flushing 1 s2e.pending := by
    rw [h3_t, setTask_self]
  have h3ti : ∀ i, 2 ≤ i → i < 2 + vrest.length →
      s3e.tasks i = WriterPC.waitingEvent 1 := by
    intro i h2 hlt
    rw [h3_t, setTask_other _ _ _ _ (by omega), setTask_other _ _ _ _ (by omega)]
    have hse := hin2 i (by omega) hlt
    simp [wakeEventWaiters, hse]
  have h4_fl : (backendComplete 1 s3e).flushes = [[v0], v1 :: vrest] := by
    simp [backendComplete, h3t1, h3_mw, h3_fl, hp2']
  have h4_t : (backendComplete 1 s3e).tasks =
      setTask (wakeEventWaiters 1 s3e.tasks) 1 WriterPC.returned := by
    simp only [backendComplete, h3t1, h3_mw]
  have h4_p : (backendComplete 1 s3e).pending = [] := by
    simp only [backendComplete, h3t1, h3_mw]
    exact h3_p
  have h4_ff : (backendComplete 1 s3e).flushing_finished = none := by
    simp only [backendComplete, h3t1, h3_mw]
    exact h3_ff
  have h4_m : (backendComplete 1 s3e).mutexLocked = false := by
    simp [backendComplete, h3t1, h3_mw]
  refine ⟨hfl2', h3_fl, ?_, h4_fl, ?_, h4_p, h4_ff, h4_m⟩
  · intro i hi
    match i, hi with
    | 0, _ => simp [h3t0]
    | 1, _ => simp [h3t1]
    | (n + 2), hi =>
      rw [h3ti (n + 2) (by omega) (by simp at hi ⊢; omega)]
      simp
  · intro i hi
    rw [h4_t]
    match i, hi with
    | 0, _ =>
      rw [setTask_other _ _ _ _ (by omega)]
      simp [wakeEventWaiters, h3t0]
    | 1, _ => exact setTask_self _ _ _
    | (n + 2), hi =>
      rw [setTask_other _ _ _ _ (by omega)]
      have h := h3ti (n + 2) (by omega) (by simp at hi ⊢; omega)
      simp [wakeEventWaiters, h]

/-- Witness for C3: one in-flight flush of `v0 = 7` and three concurrent
writes `1, 2, 3`: two flushes `[7]` and `[1, 2, 3]` in total, and all four
writers returned only after the flush carrying their value completed. -/
theorem Shc.LogConc.write_flush_coalescing_witness :
    (runArrivals 1 [1, 2, 3] (writeEntry 0 7 initState)).flushes = [] ∧
    (backendComplete 0 (runArrivals 1 [1, 2, 3] (writeEntry 0 7 initState))).flushes
      = [[7]] ∧
    (∀ i, i ≤ ([1, 2, 3] : List ℚ).length →
      ((backendComplete 0 (runArrivals 1 [1, 2, 3] (writeEntry 0 7 initState))).tasks i
        = Shc.LogConc.WriterPC.returned ↔ i = 0)) ∧
    (backendComplete 1 (backendComplete 0
      (runArrivals 1 [1, 2, 3] (writeEntry 0 7 initState)))).flushes
      = [[7], [1, 2, 3]] ∧
    (∀ i, i ≤ ([1, 2, 3] : List ℚ).length →
      (backendComplete 1 (backendComplete 0
        (runArrivals 1 [1, 2, 3] (writeEntry 0 7 initState)))).tasks i
        = Shc.LogConc.WriterPC.returned) ∧
    (backendComplete 1 (backendComplete 0
      (runArrivals 1 [1, 2, 3] (writeEntry 0 7 initState)))).pending = [] ∧
    (backendComplete 1 (backendComplete 0
      (runArrivals 1 [1, 2, 3] (writeEntry 0 7 initState)))).flushing_finished
      = none ∧
    (backendComplete 1 (backendComplete 0
      (runArrivals 1 [1, 2, 3] (writeEntry 0 7 initState)))).mutexLocked = false :=
  Shc.LogConc.write_flush_coalescing 7 [1, 2, 3] (by simp)
